import Mathlib

/-!
# Verification of the Penumbra client wallet state engine

Shallow embedding of `src/wallet/src/state.rs` (`ClientState`): block
scanning, note discovery, nullifier-driven spend detection, transaction
assembly and the serde serialization bridge.

Modelling conventions:
* `u32`/`u64` quantities (block heights, amounts, fees) are modelled as `Nat`;
  the source uses plain checked arithmetic on values far below the overflow
  boundary, so overflow wrapping is not modelled.
* Byte strings are `List Nat` with each entry a byte value.
* Rust strings (denominations, addresses, error messages) are modelled as
  `List Nat` of character codes.
* `BTreeMap` keyed by a cryptographic identifier is modelled as an association
  list over `Nat` keys (`SMap`) that the order-preserving `SMap.insert` /
  `SMap.remove` keep in strictly increasing key order.
* Cryptographic primitives (note decryption, nullifier derivation,
  diversifier indexing) are out-of-repository libraries; they are modelled as
  opaque function fields of `Wallet` / `TxEnv`, universally quantified in the
  theorems.
-/

namespace Penumbra

/-- Byte strings (each entry is one byte). -/
abbrev Bytes := List Nat

/-- Note commitments, modelled by their numeric value (decoded from 32 bytes). -/
abbrev Commitment := Nat

/-- Nullifiers, modelled by their numeric value (decoded from 32 bytes). -/
abbrev Nullifier := Nat

/-- Asset identifiers. -/
abbrev AssetId := Nat

/-- Decoded ephemeral keys. -/
abbrev EphemeralKey := Nat

/-- Opaque note ciphertexts (only ever consumed by `Wallet.decrypt`). -/
abbrev EncNote := Nat

/-- A shielded note.  The source's `Note` carries (asset id, amount,
diversifier, transmission key, blinding); the engine reads only the first
three, which is what we model. -/
structure Note where
  asset_id : AssetId
  amount : Nat
  diversifier : Nat
deriving DecidableEq

/-! ## Sorted association maps (model of `BTreeMap`) -/

/-- Model of `BTreeMap<K, V>` for numeric keys: an association list kept in
strictly increasing key order by `SMap.insert`. -/
abbrev SMap (ν : Type) : Type := List (Nat × ν)

namespace SMap

variable {ν : Type}

/-- `BTreeMap::get`. -/
def get : SMap ν → Nat → Option ν
  | [], _ => none
  | p :: rest, k => if p.1 = k then some p.2 else get rest k

/-- `BTreeMap::insert` (order-preserving; overwrites an existing key). -/
def insert : SMap ν → Nat → ν → SMap ν
  | [], k, x => [(k, x)]
  | p :: rest, k, x =>
    if k < p.1 then (k, x) :: p :: rest
    else if k = p.1 then (k, x) :: rest
    else p :: insert rest k x

/-- `BTreeMap::remove` (dropping the key). -/
def remove : SMap ν → Nat → SMap ν
  | [], _ => []
  | p :: rest, k => if p.1 = k then remove rest k else p :: remove rest k

/-- Key membership test. -/
def contains (m : SMap ν) (k : Nat) : Bool := (get m k).isSome

/-- Strictly-increasing key order, the invariant of every `BTreeMap` image. -/
def KeySorted (m : SMap ν) : Prop := List.Pairwise (fun a b => a.1 < b.1) m

instance (m : SMap ν) : Decidable (KeySorted m) :=
  inferInstanceAs (Decidable (List.Pairwise _ m))

@[simp] theorem get_insert_self (m : SMap ν) (k : Nat) (v : ν) :
    get (insert m k v) k = some v := by
  induction m with
  | nil => simp [insert, get]
  | cons p rest ih =>
    by_cases h1 : k < p.1
    · simp [insert, get, h1]
    · by_cases h2 : k = p.1
      · simp [insert, get, h1, h2]
      · have h3 : ¬ p.1 = k := fun hh => h2 hh.symm
        simp [insert, get, h1, h2, h3, ih]

theorem get_insert_ne (m : SMap ν) (k k' : Nat) (v : ν) (h : k' ≠ k) :
    get (insert m k v) k' = get m k' := by
  have hkk : ¬ k = k' := fun hh => h hh.symm
  induction m with
  | nil => simp [insert, get, hkk]
  | cons p rest ih =>
    by_cases h1 : k < p.1
    · simp [insert, get, h1, hkk]
    · by_cases h2 : k = p.1
      · subst h2
        simp [insert, get, h1, hkk]
      · simp only [insert, if_neg h1, if_neg h2, get]
        by_cases h3 : p.1 = k'
        · simp [h3]
        · simp [h3, ih]

@[simp] theorem get_remove_self (m : SMap ν) (k : Nat) :
    get (remove m k) k = none := by
  induction m with
  | nil => rfl
  | cons p rest ih =>
    by_cases h : p.1 = k
    · simp [remove, h, ih]
    · simp [remove, get, h, ih]

theorem get_remove_ne (m : SMap ν) (k k' : Nat) (h : k' ≠ k) :
    get (remove m k) k' = get m k' := by
  induction m with
  | nil => rfl
  | cons p rest ih =>
    by_cases h1 : p.1 = k
    · have h2 : ¬ k = k' := fun hh => h hh.symm
      simp [remove, get, h1, h2, ih]
    · simp only [remove, if_neg h1, get]
      by_cases h2 : p.1 = k'
      · simp [h2]
      · simp [h2, ih]

theorem mem_insert {m : SMap ν} {k : Nat} {v : ν} {p : Nat × ν}
    (h : p ∈ insert m k v) : p = (k, v) ∨ p ∈ m := by
  induction m with
  | nil => simpa [insert] using h
  | cons q rest ih =>
    by_cases h1 : k < q.1
    · simp only [insert, if_pos h1, List.mem_cons] at h
      rcases h with h | h | h
      · exact Or.inl h
      · exact Or.inr (List.mem_cons.mpr (Or.inl h))
      · exact Or.inr (List.mem_cons.mpr (Or.inr h))
    · by_cases h2 : k = q.1
      · simp only [insert, if_neg h1, if_pos h2, List.mem_cons] at h
        rcases h with h | h
        · exact Or.inl h
        · exact Or.inr (List.mem_cons.mpr (Or.inr h))
      · simp only [insert, if_neg h1, if_neg h2, List.mem_cons] at h
        rcases h with h | h
        · exact Or.inr (List.mem_cons.mpr (Or.inl h))
        · rcases ih h with h' | h'
          · exact Or.inl h'
          · exact Or.inr (List.mem_cons.mpr (Or.inr h'))

theorem mem_remove {m : SMap ν} {k : Nat} {p : Nat × ν}
    (h : p ∈ remove m k) : p ∈ m := by
  induction m with
  | nil => simp [remove] at h
  | cons q rest ih =>
    by_cases h1 : q.1 = k
    · simp only [remove, if_pos h1] at h
      exact List.mem_cons.mpr (Or.inr (ih h))
    · simp only [remove, if_neg h1, List.mem_cons] at h
      rcases h with h | h
      · exact List.mem_cons.mpr (Or.inl h)
      · exact List.mem_cons.mpr (Or.inr (ih h))

theorem get_mem {m : SMap ν} {k : Nat} {v : ν} (h : get m k = some v) :
    (k, v) ∈ m := by
  induction m with
  | nil => simp [get] at h
  | cons p rest ih =>
    by_cases h1 : p.1 = k
    · simp only [get, if_pos h1] at h
      have hv := Option.some.inj h
      exact List.mem_cons.mpr (Or.inl (by rw [← h1, ← hv]))
    · simp only [get, if_neg h1] at h
      exact List.mem_cons.mpr (Or.inr (ih h))

theorem insert_append_of_lt {m : SMap ν} {k : Nat} {v : ν}
    (h : ∀ p ∈ m, p.1 < k) : insert m k v = m ++ [(k, v)] := by
  induction m with
  | nil => rfl
  | cons q rest ih =>
    have hq : q.1 < k := h q (List.mem_cons_self _ _)
    simp only [insert, if_neg (by omega : ¬ k < q.1), if_neg (by omega : ¬ k = q.1)]
    rw [ih (fun p hp => h p (List.mem_cons_of_mem _ hp))]
    rfl

/-- Rebuilding a map by inserting a key-sorted pair list into the empty map
reproduces the list (the `TryFrom` deserialization loop is the inverse of the
sorted `From` iteration). -/
theorem foldl_insert_sorted (l : List (Nat × ν)) (acc : SMap ν)
    (h : List.Pairwise (fun a b => a.1 < b.1) (acc ++ l)) :
    List.foldl (fun (m : SMap ν) p => insert m p.1 p.2) acc l = acc ++ l := by
  induction l generalizing acc with
  | nil => simp
  | cons p rest ih =>
    have hlt : ∀ q ∈ acc, q.1 < p.1 := by
      intro q hq
      have := (List.pairwise_append.mp h).2.2
      exact this q hq p (List.mem_cons_self _ _)
    have hstep : insert acc p.1 p.2 = acc ++ [p] := insert_append_of_lt hlt
    simp only [List.foldl_cons, hstep]
    rw [ih (acc ++ [p]) (by simpa using h)]
    simp

theorem keySorted_insert {m : SMap ν} (hs : KeySorted m) (k : Nat) (v : ν) :
    KeySorted (insert m k v) := by
  induction m with
  | nil => simp [insert, KeySorted]
  | cons p rest ih =>
    have hp : List.Pairwise (fun a b : Nat × ν => a.1 < b.1) rest :=
      (List.pairwise_cons.mp hs).2
    have hhead : ∀ q ∈ rest, p.1 < q.1 := (List.pairwise_cons.mp hs).1
    by_cases h1 : k < p.1
    · simp only [KeySorted, insert, if_pos h1]
      refine List.pairwise_cons.mpr ⟨?_, hs⟩
      intro q hq
      rcases List.mem_cons.mp hq with h | h
      · rw [h]; exact h1
      · exact lt_trans h1 (hhead q h)
    · by_cases h2 : k = p.1
      · subst h2
        simp only [KeySorted, insert, if_neg h1, if_pos rfl]
        exact List.pairwise_cons.mpr ⟨hhead, hp⟩
      · simp only [KeySorted, insert, if_neg h1, if_neg h2]
        refine List.pairwise_cons.mpr ⟨?_, ih hp⟩
        intro q hq
        rcases mem_insert hq with h | h
        · rw [h]; simp only; omega
        · exact hhead q h

theorem keySorted_remove {m : SMap ν} (hs : KeySorted m) (k : Nat) :
    KeySorted (remove m k) := by
  induction m with
  | nil => simpa [remove] using hs
  | cons p rest ih =>
    have hp : List.Pairwise (fun a b : Nat × ν => a.1 < b.1) rest :=
      (List.pairwise_cons.mp hs).2
    have hhead : ∀ q ∈ rest, p.1 < q.1 := (List.pairwise_cons.mp hs).1
    by_cases h1 : p.1 = k
    · simp only [remove, if_pos h1]
      exact ih hp
    · simp only [KeySorted, remove, if_neg h1]
      refine List.pairwise_cons.mpr ⟨?_, ih hp⟩
      intro q hq
      exact hhead q (mem_remove hq)

end SMap

/-! ## Fixed-width byte encodings and hex

`note::Commitment`, `Nullifier`, ephemeral keys and `asset::Id` all travel as
32-byte strings (`to_bytes` / `try_into`); `hex::encode` / `hex::decode` sit at
the text boundary of the serde bridge. -/

/-- Big-endian base-256 digits, `k` bytes wide (`to_bytes` of a field
element, with `k = 32`). -/
def toBytesBE : Nat → Nat → Bytes
  | 0, _ => []
  | k + 1, n => toBytesBE k (n / 256) ++ [n % 256]

/-- 32-byte encoding of a commitment / nullifier / asset id. -/
def toBytes32 (n : Nat) : Bytes := toBytesBE 32 n

/-- Decoding a 32-byte string (`TryFrom<&[u8]>` for commitments, nullifiers,
ephemeral keys and asset ids): succeeds exactly on well-formed 32-byte
strings.  The canonicity check of the real field-element types (rejecting
values above the modulus) is not modelled: every 32-byte string decodes,
and every encoded value decodes back, which is all the decode/encode
behaviour the engine observes. -/
def fromBytes32 (bs : Bytes) : Option Nat :=
  if bs.length = 32 ∧ ∀ b ∈ bs, b < 256 then
    some (bs.foldl (fun acc b => acc * 256 + b) 0)
  else none

@[simp] theorem toBytesBE_length (k n : Nat) : (toBytesBE k n).length = k := by
  induction k generalizing n with
  | zero => rfl
  | succ k ih => simp [toBytesBE, ih]

theorem toBytesBE_lt (k n : Nat) : ∀ b ∈ toBytesBE k n, b < 256 := by
  induction k generalizing n with
  | zero => intro b hb; simp [toBytesBE] at hb
  | succ k ih =>
    intro b hb
    simp only [toBytesBE, List.mem_append, List.mem_singleton] at hb
    rcases hb with hb | hb
    · exact ih _ b hb
    · rw [hb]; exact Nat.mod_lt _ (by norm_num)

theorem foldl_toBytesBE (k n acc : Nat) :
    (toBytesBE k n).foldl (fun acc b => acc * 256 + b) acc
      = acc * 256 ^ k + n % 256 ^ k := by
  induction k generalizing n acc with
  | zero => simp [toBytesBE, Nat.mod_one]
  | succ k ih =>
    simp only [toBytesBE, List.foldl_append, List.foldl_cons, List.foldl_nil, ih]
    have h1 : n % 256 ^ (k + 1) = 256 * (n / 256 % 256 ^ k) + n % 256 := by
      have hpow : (256 : Nat) ^ (k + 1) = 256 * 256 ^ k := by ring
      rw [hpow, ← Nat.mod_mul_right_div_self n 256 (256 ^ k),
          ← Nat.mod_mod_of_dvd n (⟨256 ^ k, rfl⟩ : (256 : Nat) ∣ 256 * 256 ^ k)]
      exact (Nat.div_add_mod _ 256).symm
    rw [h1]; ring

theorem fromBytes32_toBytes32 {n : Nat} (h : n < 2 ^ 256) :
    fromBytes32 (toBytes32 n) = some n := by
  have h256 : (256 : Nat) ^ 32 = 2 ^ 256 := by norm_num
  simp only [fromBytes32, toBytes32, toBytesBE_length, true_and]
  rw [if_pos (toBytesBE_lt 32 n), foldl_toBytesBE]
  rw [Nat.mod_eq_of_lt (by omega), Nat.zero_mul, Nat.zero_add]

theorem fromBytes32_lt {bs : Bytes} {n : Nat} (h : fromBytes32 bs = some n) :
    n < 2 ^ 256 := by
  have hgen : ∀ (l : Bytes) (acc : Nat), (∀ b ∈ l, b < 256) →
      l.foldl (fun acc b => acc * 256 + b) acc < (acc + 1) * 256 ^ l.length := by
    intro l
    induction l with
    | nil => intro acc _; simp
    | cons b rest ih =>
      intro acc hb
      simp only [List.foldl_cons, List.length_cons]
      have hblt : b < 256 := hb b (List.mem_cons_self _ _)
      have := ih (acc * 256 + b) (fun x hx => hb x (List.mem_cons_of_mem _ hx))
      calc List.foldl (fun acc b => acc * 256 + b) (acc * 256 + b) rest
          < (acc * 256 + b + 1) * 256 ^ rest.length := this
        _ ≤ (acc + 1) * 256 ^ (rest.length + 1) := by
            have : acc * 256 + b + 1 ≤ (acc + 1) * 256 := by omega
            calc (acc * 256 + b + 1) * 256 ^ rest.length
                ≤ ((acc + 1) * 256) * 256 ^ rest.length :=
                  Nat.mul_le_mul_right _ this
              _ = (acc + 1) * 256 ^ (rest.length + 1) := by ring
  simp only [fromBytes32] at h
  split at h
  · next hcond =>
    cases h
    have := hgen bs 0 hcond.2
    rw [hcond.1] at this
    simpa using this
  · exact absurd h (by simp)

/-- One hex digit (`0`–`9`, lowercase `a`–`f`), as a character code. -/
def hexDigit (n : Nat) : Nat := if n < 10 then 48 + n else 87 + n

/-- Numeric value of one hex-digit character code (`hex::decode` accepts both
cases). -/
def hexVal (c : Nat) : Option Nat :=
  if 48 ≤ c ∧ c ≤ 57 then some (c - 48)
  else if 97 ≤ c ∧ c ≤ 102 then some (c - 87)
  else if 65 ≤ c ∧ c ≤ 70 then some (c - 55)
  else none

/-- `hex::encode`: two lowercase hex digits per byte. -/
def hexEncode : Bytes → List Nat
  | [] => []
  | b :: rest => hexDigit (b / 16) :: hexDigit (b % 16) :: hexEncode rest

/-- `hex::decode`: fails on odd length or a non-hex character. -/
def hexDecode : List Nat → Option Bytes
  | [] => some []
  | c1 :: c2 :: rest => do
    let hi ← hexVal c1
    let lo ← hexVal c2
    let tail ← hexDecode rest
    pure ((16 * hi + lo) :: tail)
  | [_] => none

theorem hexVal_hexDigit {n : Nat} (h : n < 16) : hexVal (hexDigit n) = some n := by
  by_cases h10 : n < 10
  · simp only [hexDigit, if_pos h10, hexVal]
    rw [if_pos (by omega)]
    congr 1
    omega
  · simp only [hexDigit, if_neg h10, hexVal]
    rw [if_neg (by omega), if_pos (by omega)]
    congr 1
    omega

theorem hexDecode_hexEncode {bs : Bytes} (h : ∀ b ∈ bs, b < 256) :
    hexDecode (hexEncode bs) = some bs := by
  induction bs with
  | nil => rfl
  | cons b rest ih =>
    have hb : b < 256 := h b (List.mem_cons_self _ _)
    have hhi : b / 16 < 16 := by omega
    have hlo : b % 16 < 16 := Nat.mod_lt _ (by norm_num)
    simp only [hexEncode, hexDecode, hexVal_hexDigit hhi, hexVal_hexDigit hlo,
      ih (fun x hx => h x (List.mem_cons_of_mem _ hx)), Option.bind_some,
      Option.some_bind]
    have : 16 * (b / 16) + b % 16 = b := by omega
    simp [this]

/-! ## Note-commitment tree

The incremental Merkle tree itself lives in `penumbra_crypto::merkle`, outside
this repository.  Modelled from the spec: an append-only leaf sequence (tree
positions are assigned by append order) with a set of witnessed positions;
`witness()` marks the most recently appended leaf, and
`authentication_path(c)` returns the position of the most recently witnessed
leaf holding `c` (sibling hashes are opaque to every claim and are not
modelled).  The ten-checkpoint bound affects only witness decay, which no
claim observes. -/
structure NoteCommitmentTree where
  leaves : List Commitment
  witnessed : List Nat
deriving DecidableEq

namespace NoteCommitmentTree

/-- `NoteCommitmentTree::new(max_checkpoints)`; the checkpoint bound is not
observable in the model. -/
def new (_max_checkpoints : Nat) : NoteCommitmentTree := ⟨[], []⟩

/-- `tree.append(&commitment)`. -/
def append (t : NoteCommitmentTree) (c : Commitment) : NoteCommitmentTree :=
  { t with leaves := t.leaves ++ [c] }

/-- `tree.witness()`: retain the most recently appended leaf. -/
def witness (t : NoteCommitmentTree) : NoteCommitmentTree :=
  { t with witnessed := t.witnessed ++ [t.leaves.length - 1] }

/-- `tree.authentication_path(&c)`: position of the retained leaf holding
`c` (most recent when duplicated), or `none`. -/
def authentication_path (t : NoteCommitmentTree) (c : Commitment) : Option Nat :=
  (t.witnessed.filter (fun p => t.leaves.get? p == some c)).getLast?

/-- `tree.root2()`, opaque to all claims; modelled as the leaf sequence. -/
def root (t : NoteCommitmentTree) : List Nat := t.leaves

/-- Appending then witnessing makes the just-appended leaf retrievable at the
position the tree had before the append (the source's
`expect("we just witnessed this commitment")`). -/
theorem authentication_path_append_witness (t : NoteCommitmentTree) (c : Commitment) :
    ((t.append c).witness).authentication_path c = some t.leaves.length := by
  simp only [authentication_path, witness, append, List.length_append,
    List.length_singleton, Nat.add_sub_cancel, List.filter_append]
  have hget : (t.leaves ++ [c]).get? t.leaves.length = some c := by
    rw [List.get?_append_right (Nat.le_refl _)]
    simp
  rw [List.getLast?_append_of_ne_nil]
  · simp [List.filter, hget]
  · simp [List.filter, hget]

end NoteCommitmentTree

/-! ## Wallet key material (external interface)

The wallet key module is outside this file's source; the engine consumes it
through the capabilities of spec §6, modelled as opaque total functions. -/
structure Wallet where
  /-- `Note::decrypt(ct, incoming_viewing_key, &epk)` with this wallet's
  incoming viewing key. -/
  decrypt : EncNote → EphemeralKey → Option Note
  /-- `full_viewing_key().derive_nullifier(pos, &commitment)`. -/
  derive_nullifier : Nat → Commitment → Nullifier
  /-- `incoming_viewing_key().index_for_diversifier(&diversifier)`. -/
  index_for_diversifier : Nat → Nat
  /-- `wallet.address_by_index(index)` (fallible; returns `(label, address)`). -/
  address_by_index : Nat → Option (List Nat × Nat)

/-! ## Client state -/

/-- `ClientState` (state.rs lines 26–43).  `transactions` maps commitments to
optional raw transaction bytes. -/
structure ClientState where
  last_block_height : Option Nat
  note_commitment_tree : NoteCommitmentTree
  nullifier_map : SMap Commitment
  unspent_set : SMap Note
  spent_set : SMap Note
  transactions : SMap (Option Bytes)
  asset_registry : SMap (List Nat)
  wallet : Wallet

/-- `MAX_MERKLE_CHECKPOINTS_CLIENT`. -/
def MAX_MERKLE_CHECKPOINTS_CLIENT : Nat := 10

/-- `ClientState::new(wallet)`. -/
def ClientState.new (wallet : Wallet) : ClientState where
  last_block_height := none
  note_commitment_tree := NoteCommitmentTree.new MAX_MERKLE_CHECKPOINTS_CLIENT
  nullifier_map := []
  unspent_set := []
  spent_set := []
  transactions := []
  asset_registry := []
  wallet := wallet

/-- `ClientState::add_asset_to_registry` (the `is_none` test in the source
only gates a debug log; the insert is unconditional). -/
def ClientState.add_asset_to_registry (s : ClientState) (asset_id : AssetId)
    (asset_denom : List Nat) : ClientState :=
  { s with asset_registry := SMap.insert s.asset_registry asset_id asset_denom }

/-! ## Scanner -/

/-- One `StateFragment` of a compact block, as raw wire bytes. -/
structure StateFragment where
  note_commitment : Bytes
  ephemeral_key : Bytes
  encrypted_note : EncNote

/-- A `CompactBlock`. -/
structure CompactBlock where
  height : Nat
  fragments : List StateFragment
  nullifiers : List Bytes

/-- The tagged errors `scan_block` can surface. -/
inductive ScanError where
  | unexpectedBlockHeight
  | invalidNoteCommitment
  | invalidEphemeralKey
deriving DecidableEq

/-- The height precondition of `scan_block` (the `match (height,
self.last_block_height())` at lines 280–284). -/
def heightOk : Nat → Option Nat → Bool
  | 0, none => true
  | h, some last => h == last + 1
  | _, _ => false

/-- One iteration of the fragment loop of `scan_block` (lines 287–331).
Mirroring `&mut self` with an early `?` return, the partially mutated state
is returned alongside the error. -/
def scanFragment (s : ClientState) (f : StateFragment) :
    ClientState × Option ScanError :=
  match fromBytes32 f.note_commitment with
  | none => (s, some ScanError.invalidNoteCommitment)
  | some note_commitment =>
    let s1 := { s with note_commitment_tree :=
      s.note_commitment_tree.append note_commitment }
    match fromBytes32 f.ephemeral_key with
    | none => (s1, some ScanError.invalidEphemeralKey)
    | some ephemeral_key =>
      match s1.wallet.decrypt f.encrypted_note ephemeral_key with
      | none => (s1, none)
      | some note =>
        let t := s1.note_commitment_tree.witness
        match t.authentication_path note_commitment with
        -- Dead branch: the source `expect`s this lookup to succeed, and
        -- `authentication_path_append_witness` proves it always does here.
        | none => (s1, none)
        | some pos =>
          ({ s1 with
              note_commitment_tree := t,
              nullifier_map := SMap.insert s1.nullifier_map
                (s1.wallet.derive_nullifier pos note_commitment) note_commitment,
              unspent_set := SMap.insert s1.unspent_set note_commitment note },
            none)

/-- The fragment loop: stops at the first error, keeping the mutations made
so far. -/
def scanFragments : ClientState → List StateFragment →
    ClientState × Option ScanError
  | s, [] => (s, none)
  | s, f :: fs =>
    match scanFragment s f with
    | (s', none) => scanFragments s' fs
    | (s', some e) => (s', some e)

/-- One iteration of the nullifier loop of `scan_block` (lines 335–370):
malformed bytes, unknown nullifiers and commitments outside the unspent set
are all skipped without mutation. -/
def scanNullifier (s : ClientState) (nf : Bytes) : ClientState :=
  match fromBytes32 nf with
  | none => s
  | some nullifier =>
    match SMap.get s.nullifier_map nullifier with
    | none => s
    | some note_commitment =>
      match SMap.get s.unspent_set note_commitment with
      | some note =>
        { s with
            unspent_set := SMap.remove s.unspent_set note_commitment,
            spent_set := SMap.insert s.spent_set note_commitment note }
      | none => s

/-- `ClientState::scan_block` (lines 271–377). -/
def scan_block (s : ClientState) (b : CompactBlock) :
    ClientState × Option ScanError :=
  if heightOk b.height s.last_block_height then
    match scanFragments s b.fragments with
    | (s', some e) => (s', some e)
    | (s', none) =>
      let s'' := List.foldl scanNullifier s' b.nullifiers
      ({ s'' with last_block_height := some b.height }, none)
  else (s, some ScanError.unexpectedBlockHeight)

/-- A maximal-height run of `scan_block` calls, stopping at the first
error. -/
def scanChain : ClientState → List CompactBlock → ClientState × Option ScanError
  | s, [] => (s, none)
  | s, b :: bs =>
    match scan_block s b with
    | (s', none) => scanChain s' bs
    | (s', some e) => (s', some e)

/-! ## Spendable index -/

/-- Unordered association map (model of `HashMap`; only keyed removal and
whole-map iteration over the *inner* sorted maps are ever observed, so
insertion order is irrelevant). -/
abbrev HMap (κ ν : Type) : Type := List (κ × ν)

/-- `HashMap::get` / `remove` lookup. -/
def HMap.find {κ ν : Type} [DecidableEq κ] : HMap κ ν → κ → Option ν
  | [], _ => none
  | p :: rest, k => if p.1 = k then some p.2 else HMap.find rest k

/-- The `entry(k).or_insert_with(default)`-then-mutate pattern. -/
def HMap.update {κ ν : Type} [DecidableEq κ] :
    HMap κ ν → κ → (Option ν → ν) → HMap κ ν
  | [], k, f => [(k, f none)]
  | p :: rest, k, f =>
    if p.1 = k then (k, f (some p.2)) :: rest
    else p :: HMap.update rest k f

/-- `ClientState::unspent_notes` (lines 198–217): `(address index, denom,
note)` triples in unspent-set iteration order.  The source `expect`s every
asset id to be registered; a missing denomination is modelled as `none`
(the Rust panic). -/
def ClientState.unspent_notes (s : ClientState) :
    Option (List (Nat × List Nat × Note)) :=
  s.unspent_set.mapM (fun p =>
    match SMap.get s.asset_registry p.2.asset_id with
    | none => none
    | some denom =>
      some (s.wallet.index_for_diversifier p.2.diversifier, denom, p.2))

/-- `ClientState::unspent_notes_by_denom_and_address` (lines 236–249);
`none` models the panic inside `unspent_notes`. -/
def ClientState.unspent_notes_by_denom_and_address (s : ClientState) :
    Option (HMap (List Nat) (SMap (List Note))) :=
  (s.unspent_notes).map (fun entries =>
    entries.foldl
      (fun m e =>
        HMap.update m e.2.1 (fun inner =>
          let inner := inner.getD []
          SMap.insert inner e.1 (((SMap.get inner e.1).getD []) ++ [e.2.2])))
      [])

/-! ## Transaction assembler -/

/-- A bundled value (`penumbra_crypto::Value`). -/
structure Value where
  amount : Nat
  asset_id : AssetId
deriving DecidableEq

/-- The compile-time chain identifier (opaque). -/
def CURRENT_CHAIN_ID : Nat := 0

/-- The transaction builder, modelled as the list of operations applied to
it; its cryptographic output is produced by the opaque `TxEnv.finalize`. -/
structure TxBuilder where
  root : List Nat
  fee : Nat
  chain_id : Nat
  spends : List (Nat × Note)
  outputs : List (Nat × Nat × AssetId)

/-- `Builder::add_spend` (the spend key and sibling hashes are opaque). -/
def TxBuilder.add_spend (tb : TxBuilder) (pos : Nat) (note : Note) : TxBuilder :=
  { tb with spends := tb.spends ++ [(pos, note)] }

/-- `Builder::add_output` (memo and outgoing viewing key are opaque). -/
def TxBuilder.add_output (tb : TxBuilder) (addr : Nat) (v : Value) : TxBuilder :=
  { tb with outputs := tb.outputs ++ [(addr, v.amount, v.asset_id)] }

/-- External capabilities consumed by `new_transaction`: address parsing, the
RNG-driven shuffle, the note commitment function and transaction
finalization. -/
structure TxEnv where
  parseAddress : List Nat → Option Nat
  shuffle : List Note → List Note
  note_commit : Note → Commitment
  finalize : TxBuilder → Except (List Nat) Nat

/-- The failure modes of `new_transaction`.  `crashed` models the Rust
panics reachable through `expect`/`unwrap`/indexing (numbered by site). -/
inductive TxError where
  | invalidAddress
  | noNotesOfDenomination
  | noNotesAtAddress
  | insufficientBalance (need haveTotal : Nat)
  | addressByIndex
  | finalization (msg : List Nat)
  | crashed (site : Nat)
deriving DecidableEq

/-- The greedy selection loop of `new_transaction` (lines 112–121): push
notes and accumulate their amounts, stopping at the first note that reaches
the threshold. -/
def selectNotes (threshold : Nat) :
    List Note → List Note → Nat → List Note × Nat
  | [], acc, total => (acc, total)
  | n :: rest, acc, total =>
    let acc' := acc ++ [n]
    let total' := total + n.amount
    if threshold ≤ total' then (acc', total')
    else selectNotes threshold rest acc' total'

/-- The spend loop of `new_transaction` (lines 151–165); `none` models the
panic of `authentication_path(..).unwrap()`. -/
def addSpends (s : ClientState) (env : TxEnv) :
    TxBuilder → List Note → Option TxBuilder
  | tb, [] => some tb
  | tb, n :: rest =>
    match s.note_commitment_tree.authentication_path (env.note_commit n) with
    | none => none
    | some pos => addSpends s env (tb.add_spend pos n) rest

/-- `ClientState::new_transaction` (lines 73–195).  The Rust signature takes
`&mut self`; the returned state component records every mutation the body
makes to it (there are none, which is claim C7). -/
def ClientState.new_transaction (s : ClientState) (env : TxEnv) (amount : Nat)
    (denomination : List Nat) (address : List Nat) (fee : Nat)
    (change_address : Option Nat) (source_address : Option Nat) :
    Except TxError Nat × ClientState :=
  match env.parseAddress address with
  | none => (Except.error TxError.invalidAddress, s)
  | some dest_address =>
    let tx0 : TxBuilder :=
      { root := s.note_commitment_tree.root, fee := fee,
        chain_id := CURRENT_CHAIN_ID, spends := [], outputs := [] }
    match s.unspent_notes_by_denom_and_address with
    | none => (Except.error (TxError.crashed 0), s)
    | some by_denom =>
      match HMap.find by_denom denomination with
      | none => (Except.error TxError.noNotesOfDenomination, s)
      | some notes_by_address =>
        match (match source_address with
               | some source =>
                 match SMap.get notes_by_address source with
                 | none => Except.error TxError.noNotesAtAddress
                 | some ns => Except.ok ns
               | none =>
                 Except.ok ((notes_by_address.map (fun p => p.2)).join)) with
        | Except.error e => (Except.error e, s)
        | Except.ok candidate_notes =>
          let notes := env.shuffle candidate_notes
          let sel := selectNotes (amount + fee) notes [] 0
          let notes_to_spend := sel.1
          let total_spend_value := sel.2
          match (match change_address with
                 | some ca => Except.ok ca
                 | none =>
                   match notes_to_spend.getLast? with
                   | some lastNote =>
                     Except.ok (s.wallet.index_for_diversifier lastNote.diversifier)
                   | none => Except.error (TxError.crashed 1)) with
          | Except.error e => (Except.error e, s)
          | Except.ok change_index =>
            if total_spend_value < amount + fee then
              (Except.error
                (TxError.insufficientBalance (amount + fee) total_spend_value), s)
            else
              match notes_to_spend.head? with
              | none => (Except.error (TxError.crashed 2), s)
              | some firstNote =>
                let value_to_send : Value :=
                  { amount := amount, asset_id := firstNote.asset_id }
                match addSpends s env tx0 notes_to_spend with
                | none => (Except.error (TxError.crashed 3), s)
                | some tx1 =>
                  let tx2 := tx1.add_output dest_address value_to_send
                  match s.wallet.address_by_index change_index with
                  | none => (Except.error TxError.addressByIndex, s)
                  | some labelAddr =>
                    let change : Value :=
                      { amount := total_spend_value - amount - fee,
                        asset_id := value_to_send.asset_id }
                    let tx3 := tx2.add_output labelAddr.2 change
                    match env.finalize tx3 with
                    | Except.error e => (Except.error (TxError.finalization e), s)
                    | Except.ok tx => (Except.ok tx, s)

/-! ## Serialization bridge (`serde_helpers`, lines 380–491) -/

/-- Modelled from the spec: `Note::to_bytes`, the note's fixed-width binary
form (the real 116-or-so-byte encoding lives in `penumbra_crypto`); packed
here as three 32-byte fields. -/
def noteToBytes (n : Note) : Bytes :=
  toBytes32 n.asset_id ++ toBytes32 n.amount ++ toBytes32 n.diversifier

/-- Modelled from the spec: `TryFrom<&[u8]> for Note`, inverse of
`noteToBytes` on well-formed input. -/
def noteFromBytes (bs : Bytes) : Option Note :=
  if bs.length = 96 then
    match fromBytes32 (bs.take 32), fromBytes32 ((bs.drop 32).take 32),
        fromBytes32 (bs.drop 64) with
    | some a, some m, some d =>
      some { asset_id := a, amount := m, diversifier := d }
    | _, _, _ => none
  else none

/-- `serde_helpers::ClientStateHelper`.  The note-commitment tree is stored
under an opaque `bincode` encoding that the bridge never inspects; modelled
from the spec as the tree itself.  The four map fields hold the textual pair
lists exactly as the source produces them. -/
structure ClientStateHelper where
  last_block_height : Option Nat
  note_commitment_tree : NoteCommitmentTree
  nullifier_map : List (List Nat × List Nat)
  unspent_set : List (List Nat × List Nat)
  spent_set : List (List Nat × List Nat)
  transactions : List (List Nat × List Nat)
  asset_registry : List (List Nat × List Nat)
  wallet : Wallet

/-- `impl From<ClientState> for ClientStateHelper` (lines 399–444).  Note
that `asset_registry` values are emitted as plain denomination strings
(`denom.clone()`), *not* hex. -/
def toHelper (state : ClientState) : ClientStateHelper where
  wallet := state.wallet
  last_block_height := state.last_block_height
  note_commitment_tree := state.note_commitment_tree
  nullifier_map := state.nullifier_map.map (fun p =>
    (hexEncode (toBytes32 p.1), hexEncode (toBytes32 p.2)))
  unspent_set := state.unspent_set.map (fun p =>
    (hexEncode (toBytes32 p.1), hexEncode (noteToBytes p.2)))
  spent_set := state.spent_set.map (fun p =>
    (hexEncode (toBytes32 p.1), hexEncode (noteToBytes p.2)))
  asset_registry := state.asset_registry.map (fun p =>
    (hexEncode (toBytes32 p.1), p.2))
  transactions := []

/-- `impl TryFrom<ClientStateHelper> for ClientState` (lines 446–491): decode
each pair and rebuild the maps by insertion; any decode failure rejects the
state. -/
def fromHelper (state : ClientStateHelper) : Option ClientState := do
  let nullifier_map ← state.nullifier_map.foldlM
    (fun (m : SMap Commitment) p => do
      let kb ← hexDecode p.1
      let k ← fromBytes32 kb
      let vb ← hexDecode p.2
      let v ← fromBytes32 vb
      pure (SMap.insert m k v)) []
  let unspent_set ← state.unspent_set.foldlM
    (fun (m : SMap Note) p => do
      let kb ← hexDecode p.1
      let k ← fromBytes32 kb
      let vb ← hexDecode p.2
      let v ← noteFromBytes vb
      pure (SMap.insert m k v)) []
  let spent_set ← state.spent_set.foldlM
    (fun (m : SMap Note) p => do
      let kb ← hexDecode p.1
      let k ← fromBytes32 kb
      let vb ← hexDecode p.2
      let v ← noteFromBytes vb
      pure (SMap.insert m k v)) []
  let asset_registry ← state.asset_registry.foldlM
    (fun (m : SMap (List Nat)) p => do
      let kb ← hexDecode p.1
      let k ← fromBytes32 kb
      pure (SMap.insert m k p.2)) []
  pure
    { wallet := state.wallet
      last_block_height := state.last_block_height
      note_commitment_tree := state.note_commitment_tree
      nullifier_map := nullifier_map
      unspent_set := unspent_set
      spent_set := spent_set
      asset_registry := asset_registry
      transactions := [] }

/-! ## Helper lemmas about the scanner -/

/-- A fragment whose commitment bytes do not decode fails the block before
touching the state. -/
theorem scanFragment_nc_fail {s : ClientState} {f : StateFragment}
    (hc : fromBytes32 f.note_commitment = none) :
    scanFragment s f = (s, some ScanError.invalidNoteCommitment) := by
  simp only [scanFragment, hc]

/-- A fragment whose ephemeral-key bytes do not decode fails the block, but
only after its commitment has been appended to the tree. -/
theorem scanFragment_ek_fail {s : ClientState} {f : StateFragment} {c : Commitment}
    (hc : fromBytes32 f.note_commitment = some c)
    (he : fromBytes32 f.ephemeral_key = none) :
    scanFragment s f =
      ({ s with note_commitment_tree := s.note_commitment_tree.append c },
        some ScanError.invalidEphemeralKey) := by
  simp only [scanFragment, hc, he]

/-- A fragment that decodes but does not decrypt advances the tree and
changes nothing else. -/
theorem scanFragment_decrypt_none {s : ClientState} {f : StateFragment}
    {c : Commitment} {ε : EphemeralKey}
    (hc : fromBytes32 f.note_commitment = some c)
    (he : fromBytes32 f.ephemeral_key = some ε)
    (hd : s.wallet.decrypt f.encrypted_note ε = none) :
    scanFragment s f =
      ({ s with note_commitment_tree := s.note_commitment_tree.append c }, none) := by
  simp only [scanFragment, hc, he, hd]

/-- A fragment that decodes and decrypts appends, witnesses, and registers
the nullifier (at the position the tree assigned to the new leaf) and the
unspent note. -/
theorem scanFragment_decrypt_some {s : ClientState} {f : StateFragment}
    {c : Commitment} {ε : EphemeralKey} {n : Note}
    (hc : fromBytes32 f.note_commitment = some c)
    (he : fromBytes32 f.ephemeral_key = some ε)
    (hd : s.wallet.decrypt f.encrypted_note ε = some n) :
    scanFragment s f =
      ({ s with
          note_commitment_tree := (s.note_commitment_tree.append c).witness,
          nullifier_map := SMap.insert s.nullifier_map
            (s.wallet.derive_nullifier s.note_commitment_tree.leaves.length c) c,
          unspent_set := SMap.insert s.unspent_set c n }, none) := by
  simp only [scanFragment, hc, he, hd,
    NoteCommitmentTree.authentication_path_append_witness]

/-- A fragment whose bytes decode never errors. -/
theorem scanFragment_snd_none {s : ClientState} {f : StateFragment}
    (hc : (fromBytes32 f.note_commitment).isSome)
    (he : (fromBytes32 f.ephemeral_key).isSome) :
    (scanFragment s f).2 = none := by
  obtain ⟨c, hc'⟩ := Option.isSome_iff_exists.mp hc
  obtain ⟨ε, he'⟩ := Option.isSome_iff_exists.mp he
  cases hd : s.wallet.decrypt f.encrypted_note ε with
  | none => rw [scanFragment_decrypt_none hc' he' hd]
  | some n => rw [scanFragment_decrypt_some hc' he' hd]

/-- The fragment loop succeeds when every fragment decodes. -/
theorem scanFragments_snd_none {fs : List StateFragment} (s : ClientState)
    (hdec : ∀ f ∈ fs, (fromBytes32 f.note_commitment).isSome ∧
      (fromBytes32 f.ephemeral_key).isSome) :
    (scanFragments s fs).2 = none := by
  induction fs generalizing s with
  | nil => rfl
  | cons f fs ih =>
    obtain ⟨hc, he⟩ := hdec f (List.mem_cons_self _ _)
    have h2 := scanFragment_snd_none (s := s) hc he
    have hp : scanFragment s f = ((scanFragment s f).1, none) := by
      rw [Prod.ext_iff]; exact ⟨rfl, h2⟩
    simp only [scanFragments]
    rw [hp]
    exact ih _ (fun g hg => hdec g (List.mem_cons_of_mem _ hg))

/-- `heightOk` holds exactly on genesis-from-scratch or direct successor
heights. -/
theorem heightOk_iff (h : Nat) (last : Option Nat) :
    heightOk h last = true ↔
      (h = 0 ∧ last = none) ∨ ∃ l, last = some l ∧ h = l + 1 := by
  cases last with
  | none =>
    cases h with
    | zero => simp [heightOk]
    | succ k => simp [heightOk]
  | some l =>
    cases h with
    | zero => simp [heightOk]
    | succ k =>
      simp only [heightOk, beq_iff_eq, Nat.succ.injEq]
      constructor
      · intro hh; exact Or.inr ⟨l, rfl, by omega⟩
      · rintro (⟨h0, _⟩ | ⟨l', hl, hh⟩)
        · exact absurd h0 (Nat.succ_ne_zero k)
        · cases hl; omega

/-- C1: for a block whose fragments all decode, `scan_block` succeeds
exactly when the height precondition `(height = 0 ∧ last absent) ∨ (height =
last + 1)` holds; any other height fails with `UnexpectedBlockHeight`
leaving the state untouched, and success records the block height. -/
theorem scan_block_height_precondition (s : ClientState) (b : CompactBlock)
    (hdec : ∀ f ∈ b.fragments, (fromBytes32 f.note_commitment).isSome ∧
      (fromBytes32 f.ephemeral_key).isSome) :
    ((scan_block s b).2 = none ↔
      (b.height = 0 ∧ s.last_block_height = none) ∨
      (∃ h, s.last_block_height = some h ∧ b.height = h + 1))
    ∧ (¬ ((b.height = 0 ∧ s.last_block_height = none) ∨
        (∃ h, s.last_block_height = some h ∧ b.height = h + 1)) →
        scan_block s b = (s, some ScanError.unexpectedBlockHeight))
    ∧ ((scan_block s b).2 = none →
        (scan_block s b).1.last_block_height = some b.height) := by
  cases hhb : heightOk b.height s.last_block_height with
  | false =>
    have hiff := heightOk_iff b.height s.last_block_height
    have hne : ¬ ((b.height = 0 ∧ s.last_block_height = none) ∨
        (∃ h, s.last_block_height = some h ∧ b.height = h + 1)) := by
      intro hcontra
      rw [hiff.mpr hcontra] at hhb
      exact absurd hhb (by simp)
    have hres : scan_block s b = (s, some ScanError.unexpectedBlockHeight) := by
      simp only [scan_block, hhb]
      rfl
    refine ⟨?_, fun _ => hres, ?_⟩
    · rw [hres]; simp [hne]
    · rw [hres]; simp
  | true =>
    have hfr := scanFragments_snd_none s hdec
    have hp : scanFragments s b.fragments = ((scanFragments s b.fragments).1, none) := by
      rw [Prod.ext_iff]; exact ⟨rfl, hfr⟩
    have hres : scan_block s b =
        ({ List.foldl scanNullifier (scanFragments s b.fragments).1 b.nullifiers with
            last_block_height := some b.height }, none) := by
      simp only [scan_block, hhb, if_true]
      rw [hp]
    refine ⟨?_, ?_, ?_⟩
    · rw [hres]
      simp only [true_iff]
      exact (heightOk_iff b.height s.last_block_height).mp hhb
    · intro hcontra
      exact absurd ((heightOk_iff b.height s.last_block_height).mp hhb) hcontra
    · intro _
      rw [hres]

/-! ## Concrete instances for witnesses and counterexamples -/

/-- A concrete note owned by the concrete wallet below. -/
def note7 : Note := { asset_id := 7, amount := 100, diversifier := 0 }

/-- A concrete wallet: ciphertext `1` decrypts to `note7`, everything else is
foreign. -/
def wallet0 : Wallet where
  decrypt := fun ct _ => if ct = 1 then some note7 else none
  derive_nullifier := fun pos c => 1000000 + pos * 1000 + c
  index_for_diversifier := fun d => d
  address_by_index := fun i => some ([], i)

/-- An empty genesis block. -/
def emptyBlock0 : CompactBlock := { height := 0, fragments := [], nullifiers := [] }

/-- Witness for C1 at a concrete input: the empty genesis block is accepted
from the fresh state and records height 0. -/
theorem scan_block_height_precondition_witness :
    (scan_block (ClientState.new wallet0) emptyBlock0).2 = none ∧
    (scan_block (ClientState.new wallet0) emptyBlock0).1.last_block_height = some 0 := by
  have h := scan_block_height_precondition (ClientState.new wallet0) emptyBlock0
    (by intro f hf; cases hf)
  have hs : (scan_block (ClientState.new wallet0) emptyBlock0).2 = none :=
    h.1.mpr (Or.inl ⟨rfl, rfl⟩)
  exact ⟨hs, h.2.2 hs⟩

/-! ## C2: decode failures are not atomic -/

/-- Both byte fields of a fragment decode. -/
def fragmentDecodes (f : StateFragment) : Prop :=
  (fromBytes32 f.note_commitment).isSome ∧ (fromBytes32 f.ephemeral_key).isSome

instance (f : StateFragment) : Decidable (fragmentDecodes f) :=
  inferInstanceAs (Decidable (_ ∧ _))

/-- A fragment with a well-formed commitment but malformed (2-byte)
ephemeral key. -/
def fragBadEk : StateFragment :=
  { note_commitment := toBytes32 5, ephemeral_key := [1, 2], encrypted_note := 0 }

/-- A genesis block containing only `fragBadEk`. -/
def blockBadEk : CompactBlock := { height := 0, fragments := [fragBadEk], nullifiers := [] }

/-- C2 counterexample: a block whose single fragment has an undecodable
ephemeral key is rejected with `InvalidEphemeralKey`, yet the returned state
has already appended the fragment's commitment to the note-commitment tree —
the state is *not* untouched. -/
theorem scan_block_decode_atomicity_counterexample :
    (scan_block (ClientState.new wallet0) blockBadEk).2 =
      some ScanError.invalidEphemeralKey ∧
    (scan_block (ClientState.new wallet0) blockBadEk).1.note_commitment_tree.leaves = [5] ∧
    (ClientState.new wallet0).note_commitment_tree.leaves = [] := by
  refine ⟨?_, ?_, rfl⟩ <;> decide

/-- A decode failure produces one of the two decode errors and leaves
`last_block_height` as it was. -/
theorem scanFragment_decode_fail {s : ClientState} {f : StateFragment}
    (hf : ¬ fragmentDecodes f) :
    ∃ e, (e = ScanError.invalidNoteCommitment ∨ e = ScanError.invalidEphemeralKey) ∧
      scanFragment s f = ((scanFragment s f).1, some e) ∧
      (scanFragment s f).1.last_block_height = s.last_block_height := by
  cases hc : fromBytes32 f.note_commitment with
  | none =>
    refine ⟨ScanError.invalidNoteCommitment, Or.inl rfl, ?_, ?_⟩ <;>
      rw [scanFragment_nc_fail hc]
  | some c =>
    cases he : fromBytes32 f.ephemeral_key with
    | none =>
      refine ⟨ScanError.invalidEphemeralKey, Or.inr rfl, ?_, ?_⟩ <;>
        rw [scanFragment_ek_fail hc he]
    | some ε =>
      exact absurd ⟨by rw [hc]; rfl, by rw [he]; rfl⟩ hf

/-- Splitting the fragment loop after an error-free prefix. -/
theorem scanFragments_append_ok (pre rest : List StateFragment) (s : ClientState)
    (h : (scanFragments s pre).2 = none) :
    scanFragments s (pre ++ rest) = scanFragments (scanFragments s pre).1 rest := by
  induction pre generalizing s with
  | nil => rfl
  | cons f fs ih =>
    cases hp : scanFragment s f with
    | mk s' e =>
      cases e with
      | none =>
        have h' : (scanFragments s' fs).2 = none := by
          simpa only [scanFragments, hp] using h
        simp only [List.cons_append, scanFragments, hp]
        exact ih s' h'
      | some e' =>
        exfalso
        simp only [scanFragments, hp] at h
        exact Option.noConfusion h

/-- C2 (amended): if a fragment of a height-valid block fails to decode,
`scan_block` errors with `InvalidNoteCommitment` or `InvalidEphemeralKey`
and `last_block_height` is not advanced — but the state is only untouched up
to the failing fragment: every earlier fragment has been fully applied, and
on an ephemeral-key failure the failing fragment's commitment has already
been appended. -/
theorem scan_block_decode_failure_partial (s : ClientState) (b : CompactBlock)
    (pre : List StateFragment) (f : StateFragment) (rest : List StateFragment)
    (hfrags : b.fragments = pre ++ f :: rest)
    (hok : heightOk b.height s.last_block_height = true)
    (hpre : ∀ g ∈ pre, fragmentDecodes g)
    (hf : ¬ fragmentDecodes f) :
    ∃ e, (e = ScanError.invalidNoteCommitment ∨ e = ScanError.invalidEphemeralKey) ∧
      scan_block s b = ((scanFragment (scanFragments s pre).1 f).1, some e) ∧
      (scan_block s b).1.last_block_height = s.last_block_height := by
  have hpre' : (scanFragments s pre).2 = none :=
    scanFragments_snd_none s (fun g hg => hpre g hg)
  set s1 := (scanFragments s pre).1 with hs1
  obtain ⟨e, he, hfrag, hlbh⟩ := scanFragment_decode_fail (s := s1) (f := f) hf
  have hloop : scanFragments s b.fragments =
      ((scanFragment s1 f).1, some e) := by
    rw [hfrags, scanFragments_append_ok pre (f :: rest) s hpre']
    simp only [scanFragments, ← hs1]
    rw [hfrag]
  have hpres : ∀ (fs : List StateFragment) (t : ClientState),
      (scanFragments t fs).1.last_block_height = t.last_block_height := by
    intro fs
    induction fs with
    | nil => intro t; rfl
    | cons g gs ih =>
      intro t
      cases hp : scanFragment t g with
      | mk t' e' =>
        have ht' : t'.last_block_height = t.last_block_height := by
          have := scanFragment_decode_fail (s := t) (f := g)
          cases hcg : fromBytes32 g.note_commitment with
          | none => rw [scanFragment_nc_fail hcg] at hp; cases hp; rfl
          | some c =>
            cases heg : fromBytes32 g.ephemeral_key with
            | none => rw [scanFragment_ek_fail hcg heg] at hp; cases hp; rfl
            | some ε =>
              cases hdg : t.wallet.decrypt g.encrypted_note ε with
              | none => rw [scanFragment_decrypt_none hcg heg hdg] at hp; cases hp; rfl
              | some n => rw [scanFragment_decrypt_some hcg heg hdg] at hp; cases hp; rfl
        cases e' with
        | none => simp only [scanFragments, hp]; rw [ih t', ht']
        | some e'' => simp only [scanFragments, hp]; exact ht'
  refine ⟨e, he, ?_, ?_⟩
  · simp only [scan_block, hok, if_true, hloop]
  · simp only [scan_block, hok, if_true, hloop]
    have h1 : s1.last_block_height = s.last_block_height := hpres pre s
    rw [hlbh, h1]

/-- Witness for the amended C2 theorem at a concrete input. -/
theorem scan_block_decode_failure_partial_witness :
    (scan_block (ClientState.new wallet0) blockBadEk).2 =
      some ScanError.invalidEphemeralKey ∧
    (scan_block (ClientState.new wallet0) blockBadEk).1.last_block_height = none := by
  obtain ⟨e, he, hres, hlbh⟩ := scan_block_decode_failure_partial
    (ClientState.new wallet0) blockBadEk [] fragBadEk [] rfl rfl
    (by intro g hg; cases hg) (by decide)
  rcases he with he | he
  · subst he
    rw [hres] at hlbh ⊢
    exact absurd (congrArg Prod.snd hres) (by decide)
  · subst he
    refine ⟨by rw [hres], hlbh⟩

/-! ## C3: per-fragment processing order and updates -/

/-- C3: each decodable fragment appends its commitment to the tree before
the decryption attempt (so failed decryptions still advance the tree
position and leave every map unchanged); exactly on decryption success the
just-appended leaf is witnessed, the derived nullifier (at the new leaf's
position) is mapped to the commitment, and the note enters the unspent
set. -/
theorem scan_fragment_order_and_updates (s : ClientState) (f : StateFragment)
    (c : Commitment) (ε : EphemeralKey)
    (hc : fromBytes32 f.note_commitment = some c)
    (he : fromBytes32 f.ephemeral_key = some ε) :
    ((scanFragment s f).1.note_commitment_tree.leaves
        = s.note_commitment_tree.leaves ++ [c])
    ∧ (s.wallet.decrypt f.encrypted_note ε = none →
        scanFragment s f =
          ({ s with note_commitment_tree := s.note_commitment_tree.append c },
            none))
    ∧ (∀ n, s.wallet.decrypt f.encrypted_note ε = some n →
        scanFragment s f =
          ({ s with
              note_commitment_tree := (s.note_commitment_tree.append c).witness,
              nullifier_map := SMap.insert s.nullifier_map
                (s.wallet.derive_nullifier s.note_commitment_tree.leaves.length c) c,
              unspent_set := SMap.insert s.unspent_set c n }, none)) := by
  refine ⟨?_, ?_, ?_⟩
  · cases hd : s.wallet.decrypt f.encrypted_note ε with
    | none => rw [scanFragment_decrypt_none hc he hd]; rfl
    | some n => rw [scanFragment_decrypt_some hc he hd]; rfl
  · intro hd
    exact scanFragment_decrypt_none hc he hd
  · intro n hd
    exact scanFragment_decrypt_some hc he hd

/-- A fragment whose ciphertext the concrete wallet can decrypt. -/
def fragGood : StateFragment :=
  { note_commitment := toBytes32 5, ephemeral_key := toBytes32 9, encrypted_note := 1 }

/-- A genesis block delivering `fragGood`. -/
def blockOneNote : CompactBlock :=
  { height := 0, fragments := [fragGood], nullifiers := [] }

/-- The state after scanning `blockOneNote` from scratch. -/
def stateOneNote : ClientState := (scan_block (ClientState.new wallet0) blockOneNote).1

/-- Witness for C3 at a concrete input. -/
theorem scan_fragment_order_and_updates_witness :
    (scanFragment (ClientState.new wallet0) fragGood).1.note_commitment_tree.leaves
      = [5] ∧
    scanFragment (ClientState.new wallet0) fragGood =
      ({ ClientState.new wallet0 with
          note_commitment_tree :=
            (((ClientState.new wallet0).note_commitment_tree).append 5).witness,
          nullifier_map := SMap.insert [] (wallet0.derive_nullifier 0 5) 5,
          unspent_set := SMap.insert [] 5 note7 }, none) := by
  have h := scan_fragment_order_and_updates (ClientState.new wallet0) fragGood 5 9
    (by decide) (by decide)
  exact ⟨h.1.trans rfl, h.2.2 note7 rfl⟩

/-! ## C4: nullifier handling -/

/-- C4: each nullifier entry of a block is handled in place: malformed
bytes, unknown nullifiers and commitments outside the unspent set are
skipped without failing the block and without modifying any set, and a
nullifier mapping to an unspent commitment moves that commitment and its
note from the unspent set to the spent set. -/
theorem scan_nullifier_cases (s : ClientState) (nf : Bytes) :
    (fromBytes32 nf = none → scanNullifier s nf = s)
    ∧ (∀ ν, fromBytes32 nf = some ν → SMap.get s.nullifier_map ν = none →
        scanNullifier s nf = s)
    ∧ (∀ ν c, fromBytes32 nf = some ν → SMap.get s.nullifier_map ν = some c →
        SMap.get s.unspent_set c = none → scanNullifier s nf = s)
    ∧ (∀ ν c n, fromBytes32 nf = some ν → SMap.get s.nullifier_map ν = some c →
        SMap.get s.unspent_set c = some n →
        scanNullifier s nf =
          { s with unspent_set := SMap.remove s.unspent_set c,
                   spent_set := SMap.insert s.spent_set c n }) := by
  refine ⟨?_, ?_, ?_, ?_⟩
  · intro h; simp only [scanNullifier, h]
  · intro ν h1 h2; simp only [scanNullifier, h1, h2]
  · intro ν c h1 h2 h3; simp only [scanNullifier, h1, h2, h3]
  · intro ν c n h1 h2 h3; simp only [scanNullifier, h1, h2, h3]

/-- Witness for C4 at a concrete input: the derived nullifier of the one
note in `stateOneNote` moves it from the unspent set to the spent set. -/
theorem scan_nullifier_cases_witness :
    scanNullifier stateOneNote (toBytes32 1000005) =
      { stateOneNote with
          unspent_set := SMap.remove stateOneNote.unspent_set 5,
          spent_set := SMap.insert stateOneNote.spent_set 5 note7 } := by
  exact (scan_nullifier_cases stateOneNote (toBytes32 1000005)).2.2.2 1000005 5 note7
    (by decide) (by decide) (by decide)

/-! ## C10: the asset registry insert -/

/-- C10: `add_asset_to_registry` maps the asset id to the denomination —
overwriting any pre-existing entry — and leaves every other key and every
other field of the state unchanged. -/
theorem add_asset_to_registry_spec (s : ClientState) (asset_id : AssetId)
    (denom : List Nat) :
    (SMap.get (s.add_asset_to_registry asset_id denom).asset_registry asset_id
      = some denom)
    ∧ (∀ k, k ≠ asset_id →
        SMap.get (s.add_asset_to_registry asset_id denom).asset_registry k =
          SMap.get s.asset_registry k)
    ∧ (s.add_asset_to_registry asset_id denom).last_block_height
        = s.last_block_height
    ∧ (s.add_asset_to_registry asset_id denom).note_commitment_tree
        = s.note_commitment_tree
    ∧ (s.add_asset_to_registry asset_id denom).nullifier_map = s.nullifier_map
    ∧ (s.add_asset_to_registry asset_id denom).unspent_set = s.unspent_set
    ∧ (s.add_asset_to_registry asset_id denom).spent_set = s.spent_set
    ∧ (s.add_asset_to_registry asset_id denom).transactions = s.transactions
    ∧ (s.add_asset_to_registry asset_id denom).wallet = s.wallet :=
  ⟨SMap.get_insert_self _ _ _, fun _ hk => SMap.get_insert_ne _ _ _ _ hk,
    rfl, rfl, rfl, rfl, rfl, rfl, rfl⟩

/-- A state with two registered assets (3 ↦ "A", 7 ↦ "X"). -/
def stateReg : ClientState :=
  ((ClientState.new wallet0).add_asset_to_registry 3 [65]).add_asset_to_registry 7 [88]

/-- Witness for C10 at a concrete input: re-registering asset 7 overwrites
its existing denomination and leaves asset 3 alone. -/
theorem add_asset_to_registry_spec_witness :
    SMap.get (stateReg.add_asset_to_registry 7 [89]).asset_registry 7 = some [89] ∧
    SMap.get (stateReg.add_asset_to_registry 7 [89]).asset_registry 3 =
      SMap.get stateReg.asset_registry 3 := by
  have h := add_asset_to_registry_spec stateReg 7 [89]
  exact ⟨h.1, h.2.1 3 (by decide)⟩

/-! ## Frame lemmas for the scanner -/

/-- Fields of the state a fragment never touches. -/
theorem scanFragment_frame (s : ClientState) (f : StateFragment) :
    (scanFragment s f).1.last_block_height = s.last_block_height ∧
    (scanFragment s f).1.spent_set = s.spent_set ∧
    (scanFragment s f).1.transactions = s.transactions ∧
    (scanFragment s f).1.asset_registry = s.asset_registry ∧
    (scanFragment s f).1.wallet = s.wallet := by
  cases hc : fromBytes32 f.note_commitment with
  | none => rw [scanFragment_nc_fail hc]; exact ⟨rfl, rfl, rfl, rfl, rfl⟩
  | some c =>
    cases he : fromBytes32 f.ephemeral_key with
    | none => rw [scanFragment_ek_fail hc he]; exact ⟨rfl, rfl, rfl, rfl, rfl⟩
    | some ε =>
      cases hd : s.wallet.decrypt f.encrypted_note ε with
      | none =>
        rw [scanFragment_decrypt_none hc he hd]; exact ⟨rfl, rfl, rfl, rfl, rfl⟩
      | some n =>
        rw [scanFragment_decrypt_some hc he hd]; exact ⟨rfl, rfl, rfl, rfl, rfl⟩

/-- Fields of the state the fragment loop never touches. -/
theorem scanFragments_frame (fs : List StateFragment) (s : ClientState) :
    (scanFragments s fs).1.last_block_height = s.last_block_height ∧
    (scanFragments s fs).1.spent_set = s.spent_set ∧
    (scanFragments s fs).1.transactions = s.transactions ∧
    (scanFragments s fs).1.asset_registry = s.asset_registry ∧
    (scanFragments s fs).1.wallet = s.wallet := by
  induction fs generalizing s with
  | nil => exact ⟨rfl, rfl, rfl, rfl, rfl⟩
  | cons f fs ih =>
    have hf := scanFragment_frame s f
    cases hp : scanFragment s f with
    | mk s1 e =>
      rw [hp] at hf
      cases e with
      | none =>
        have h1 := ih s1
        simp only [scanFragments, hp]
        exact ⟨h1.1.trans hf.1, h1.2.1.trans hf.2.1, h1.2.2.1.trans hf.2.2.1,
          h1.2.2.2.1.trans hf.2.2.2.1, h1.2.2.2.2.trans hf.2.2.2.2⟩
      | some e' =>
        simp only [scanFragments, hp]
        exact hf

/-- Fields of the state a nullifier entry never touches. -/
theorem scanNullifier_frame (s : ClientState) (nf : Bytes) :
    (scanNullifier s nf).last_block_height = s.last_block_height ∧
    (scanNullifier s nf).note_commitment_tree = s.note_commitment_tree ∧
    (scanNullifier s nf).nullifier_map = s.nullifier_map ∧
    (scanNullifier s nf).transactions = s.transactions ∧
    (scanNullifier s nf).asset_registry = s.asset_registry ∧
    (scanNullifier s nf).wallet = s.wallet := by
  cases h1 : fromBytes32 nf with
  | none => simp [scanNullifier, h1]
  | some ν =>
    cases h2 : SMap.get s.nullifier_map ν with
    | none => simp [scanNullifier, h1, h2]
    | some c =>
      cases h3 : SMap.get s.unspent_set c with
      | none => simp [scanNullifier, h1, h2, h3]
      | some n => simp [scanNullifier, h1, h2, h3]

/-- Fields of the state the nullifier loop never touches. -/
theorem foldl_scanNullifier_frame (nfs : List Bytes) (s : ClientState) :
    (List.foldl scanNullifier s nfs).last_block_height = s.last_block_height ∧
    (List.foldl scanNullifier s nfs).note_commitment_tree = s.note_commitment_tree ∧
    (List.foldl scanNullifier s nfs).nullifier_map = s.nullifier_map ∧
    (List.foldl scanNullifier s nfs).transactions = s.transactions ∧
    (List.foldl scanNullifier s nfs).asset_registry = s.asset_registry ∧
    (List.foldl scanNullifier s nfs).wallet = s.wallet := by
  induction nfs generalizing s with
  | nil => exact ⟨rfl, rfl, rfl, rfl, rfl, rfl⟩
  | cons nf nfs ih =>
    have hn := scanNullifier_frame s nf
    have h1 := ih (scanNullifier s nf)
    simp only [List.foldl_cons]
    exact ⟨h1.1.trans hn.1, h1.2.1.trans hn.2.1, h1.2.2.1.trans hn.2.2.1,
      h1.2.2.2.1.trans hn.2.2.2.1, h1.2.2.2.2.1.trans hn.2.2.2.2.1,
      h1.2.2.2.2.2.trans hn.2.2.2.2.2⟩

/-- Fields of the state `scan_block` never touches. -/
theorem scanBlock_frame (s : ClientState) (b : CompactBlock) :
    (scan_block s b).1.transactions = s.transactions ∧
    (scan_block s b).1.asset_registry = s.asset_registry ∧
    (scan_block s b).1.wallet = s.wallet := by
  cases hok : heightOk b.height s.last_block_height with
  | false => simp only [scan_block, hok]; exact ⟨rfl, rfl, rfl⟩
  | true =>
    have hf := scanFragments_frame b.fragments s
    cases hp : scanFragments s b.fragments with
    | mk s1 e =>
      rw [hp] at hf
      cases e with
      | none =>
        have hn := foldl_scanNullifier_frame b.nullifiers s1
        simp only [scan_block, hok, if_true, hp]
        exact ⟨hn.2.2.2.1.trans hf.2.2.1, hn.2.2.2.2.1.trans hf.2.2.2.1,
          hn.2.2.2.2.2.trans hf.2.2.2.2⟩
      | some e' =>
        simp only [scan_block, hok, if_true, hp]
        exact ⟨hf.2.2.1, hf.2.2.2.1, hf.2.2.2.2⟩

/-! ## C6: asset-registry coverage (invariant I5) -/

/-- Invariant I5 of the spec, relative to a registry `reg`: every note in
`unspent_set ∪ spent_set` has its asset id registered. -/
def NotesCovered (reg : SMap (List Nat)) (s : ClientState) : Prop :=
  (∀ p ∈ s.unspent_set, (SMap.get reg p.2.asset_id).isSome = true) ∧
  (∀ p ∈ s.spent_set, (SMap.get reg p.2.asset_id).isSome = true)

/-- C6 counterexample: scanning a single decryptable fragment from the
empty state succeeds and puts a note into the unspent set, while the (still
empty) asset registry has no entry for its asset id — invariant I5 does not
hold after this successful `scan_block` sequence from the empty state. -/
theorem scan_block_registry_counterexample :
    (scan_block (ClientState.new wallet0) blockOneNote).2 = none ∧
    SMap.get stateOneNote.unspent_set 5 = some note7 ∧
    SMap.get stateOneNote.asset_registry note7.asset_id = none := by
  refine ⟨?_, ?_, ?_⟩ <;> decide

/-- A fragment preserves I5 provided any note it can decrypt has a
registered asset id. -/
theorem scanFragment_covered {reg : SMap (List Nat)} {s : ClientState}
    {f : StateFragment} (hcov : NotesCovered reg s)
    (hfr : ∀ c ε n, fromBytes32 f.note_commitment = some c →
      fromBytes32 f.ephemeral_key = some ε →
      s.wallet.decrypt f.encrypted_note ε = some n →
      (SMap.get reg n.asset_id).isSome = true) :
    NotesCovered reg (scanFragment s f).1 := by
  cases hc : fromBytes32 f.note_commitment with
  | none => rw [scanFragment_nc_fail hc]; exact hcov
  | some c =>
    cases he : fromBytes32 f.ephemeral_key with
    | none => rw [scanFragment_ek_fail hc he]; exact hcov
    | some ε =>
      cases hd : s.wallet.decrypt f.encrypted_note ε with
      | none => rw [scanFragment_decrypt_none hc he hd]; exact hcov
      | some n =>
        rw [scanFragment_decrypt_some hc he hd]
        constructor
        · intro p hp
          rcases SMap.mem_insert hp with h | h
          · rw [h]; exact hfr c ε n hc he hd
          · exact hcov.1 p h
        · intro p hp
          exact hcov.2 p hp

/-- The fragment loop preserves I5 provided every decryptable note of the
block has a registered asset id. -/
theorem scanFragments_covered (fs : List StateFragment) :
    ∀ (reg : SMap (List Nat)) (s : ClientState), NotesCovered reg s →
    (∀ f ∈ fs, ∀ c ε n, fromBytes32 f.note_commitment = some c →
      fromBytes32 f.ephemeral_key = some ε →
      s.wallet.decrypt f.encrypted_note ε = some n →
      (SMap.get reg n.asset_id).isSome = true) →
    NotesCovered reg (scanFragments s fs).1 := by
  induction fs with
  | nil => intro reg s hcov _; exact hcov
  | cons f fs ih =>
    intro reg s hcov hfr
    have hstep := scanFragment_covered (f := f) hcov
      (hfr f (List.mem_cons_self _ _))
    have hw : (scanFragment s f).1.wallet = s.wallet := (scanFragment_frame s f).2.2.2.2
    cases hp : scanFragment s f with
    | mk s1 e =>
      rw [hp] at hstep hw
      cases e with
      | none =>
        simp only [scanFragments, hp]
        exact ih reg s1 hstep (by
          intro g hg c ε n hc he hd
          rw [hw] at hd
          exact hfr g (List.mem_cons_of_mem _ hg) c ε n hc he hd)
      | some e' =>
        simp only [scanFragments, hp]
        exact hstep

/-- A nullifier entry preserves I5. -/
theorem scanNullifier_covered {reg : SMap (List Nat)} {s : ClientState}
    {nf : Bytes} (hcov : NotesCovered reg s) :
    NotesCovered reg (scanNullifier s nf) := by
  cases h1 : fromBytes32 nf with
  | none => simp only [scanNullifier, h1]; exact hcov
  | some ν =>
    cases h2 : SMap.get s.nullifier_map ν with
    | none => simp only [scanNullifier, h1, h2]; exact hcov
    | some c =>
      cases h3 : SMap.get s.unspent_set c with
      | none => simp only [scanNullifier, h1, h2, h3]; exact hcov
      | some n =>
        simp only [scanNullifier, h1, h2, h3]
        constructor
        · intro p hp
          exact hcov.1 p (SMap.mem_remove hp)
        · intro p hp
          rcases SMap.mem_insert hp with h | h
          · rw [h]
            exact hcov.1 (c, n) (SMap.get_mem h3)
          · exact hcov.2 p h

/-- The nullifier loop preserves I5. -/
theorem foldl_scanNullifier_covered (nfs : List Bytes) :
    ∀ {reg : SMap (List Nat)} (s : ClientState), NotesCovered reg s →
    NotesCovered reg (List.foldl scanNullifier s nfs) := by
  induction nfs with
  | nil => intro reg s hcov; exact hcov
  | cons nf nfs ih =>
    intro reg s hcov
    simp only [List.foldl_cons]
    exact ih _ (scanNullifier_covered hcov)

/-- C6 (amended): `scan_block` never modifies the asset registry, so from
the empty state invariant I5 fails as soon as any fragment decrypts; but if
the state satisfies I5 and every note decryptable from the block's fragments
has a registered asset id, then I5 still holds at the end of the scan. -/
theorem scan_block_asset_registry_invariant (s : ClientState) (b : CompactBlock)
    (h5 : NotesCovered s.asset_registry s)
    (hreg : ∀ f ∈ b.fragments, ∀ c ε n, fromBytes32 f.note_commitment = some c →
      fromBytes32 f.ephemeral_key = some ε →
      s.wallet.decrypt f.encrypted_note ε = some n →
      (SMap.get s.asset_registry n.asset_id).isSome = true) :
    (scan_block s b).1.asset_registry = s.asset_registry ∧
    NotesCovered (scan_block s b).1.asset_registry (scan_block s b).1 := by
  have hregeq : (scan_block s b).1.asset_registry = s.asset_registry :=
    (scanBlock_frame s b).2.1
  refine ⟨hregeq, ?_⟩
  rw [hregeq]
  cases hok : heightOk b.height s.last_block_height with
  | false => simp only [scan_block, hok]; exact h5
  | true =>
    have hfr := scanFragments_covered b.fragments s.asset_registry s h5 hreg
    cases hp : scanFragments s b.fragments with
    | mk s1 e =>
      rw [hp] at hfr
      cases e with
      | none =>
        simp only [scan_block, hok, if_true, hp]
        have hn := foldl_scanNullifier_covered b.nullifiers s1 hfr
        exact ⟨fun p hp' => hn.1 p hp', fun p hp' => hn.2 p hp'⟩
      | some e' =>
        simp only [scan_block, hok, if_true, hp]
        exact hfr

/-- A fresh state that has registered asset 7 (as "X"). -/
def stateReg7 : ClientState := (ClientState.new wallet0).add_asset_to_registry 7 [88]

/-- Witness for the amended C6 theorem at a concrete input. -/
theorem scan_block_asset_registry_invariant_witness :
    (scan_block stateReg7 blockOneNote).1.asset_registry = stateReg7.asset_registry ∧
    NotesCovered (scan_block stateReg7 blockOneNote).1.asset_registry
      (scan_block stateReg7 blockOneNote).1 := by
  refine scan_block_asset_registry_invariant stateReg7 blockOneNote
    ⟨fun p hp => absurd hp (List.not_mem_nil p),
      fun p hp => absurd hp (List.not_mem_nil p)⟩ ?_
  intro f hf c ε n hc he hd
  have hf' : f = fragGood := by simpa [blockOneNote] using hf
  subst hf'
  have hdec : stateReg7.wallet.decrypt fragGood.encrypted_note ε = some note7 := rfl
  rw [hdec] at hd
  cases hd
  decide

/-! ## C5: disjointness of the unspent and spent sets -/

/-- Entries surviving `remove` never carry the removed key. -/
theorem SMap.mem_remove_ne {ν : Type} {m : SMap ν} {k : Nat} {p : Nat × ν}
    (h : p ∈ SMap.remove m k) : p.1 ≠ k := by
  induction m with
  | nil => simp [SMap.remove] at h
  | cons q rest ih =>
    by_cases h1 : q.1 = k
    · simp only [SMap.remove, if_pos h1] at h
      exact ih h
    · simp only [SMap.remove, if_neg h1, List.mem_cons] at h
      rcases h with h | h
      · rw [h]; exact h1
      · exact ih h

/-- The commitment a fragment would contribute to the unspent set: its
decoded commitment when its bytes decode and its ciphertext decrypts under
`w`. -/
def fragDecrypted (w : Wallet) (f : StateFragment) : Option Commitment :=
  match fromBytes32 f.note_commitment, fromBytes32 f.ephemeral_key with
  | some c, some ε => if (w.decrypt f.encrypted_note ε).isSome then some c else none
  | _, _ => none

/-- The decrypted commitments a block delivers, in order. -/
def blockDecrypted (w : Wallet) (b : CompactBlock) : List Commitment :=
  b.fragments.filterMap (fragDecrypted w)

/-- The decrypted commitments a block sequence delivers, in order. -/
def chainDecrypted (w : Wallet) : List CompactBlock → List Commitment
  | [] => []
  | b :: bs => blockDecrypted w b ++ chainDecrypted w bs

/-- `none ↦ []`, `some c ↦ [c]`. -/
def optList : Option Commitment → List Commitment
  | none => []
  | some c => [c]

/-- Key-disjointness of two maps (property P1 / invariant I1). -/
def DisjointKeys (a b : SMap Note) : Prop := ∀ p ∈ a, SMap.get b p.1 = none

/-- Induction invariant for C5: all keys of both sets come from the
delivered commitments `P`, and the sets are key-disjoint. -/
def TrackInv (P : List Commitment) (s : ClientState) : Prop :=
  (∀ p ∈ s.unspent_set, p.1 ∈ P) ∧
  (∀ p ∈ s.spent_set, p.1 ∈ P) ∧
  DisjointKeys s.unspent_set s.spent_set

theorem trackInv_mono {P P' : List Commitment} {s : ClientState}
    (hsub : ∀ c ∈ P, c ∈ P') (h : TrackInv P s) : TrackInv P' s :=
  ⟨fun p hp => hsub _ (h.1 p hp), fun p hp => hsub _ (h.2.1 p hp), h.2.2⟩

theorem scanFragment_trackInv {P : List Commitment} {s : ClientState}
    {f : StateFragment} (hinv : TrackInv P s)
    (hfresh : ∀ c, fragDecrypted s.wallet f = some c → c ∉ P) :
    TrackInv (P ++ optList (fragDecrypted s.wallet f)) (scanFragment s f).1 := by
  cases hc : fromBytes32 f.note_commitment with
  | none =>
    have hfd : fragDecrypted s.wallet f = none := by simp [fragDecrypted, hc]
    rw [scanFragment_nc_fail hc, hfd]
    simpa [optList] using hinv
  | some c =>
    cases he : fromBytes32 f.ephemeral_key with
    | none =>
      have hfd : fragDecrypted s.wallet f = none := by simp [fragDecrypted, hc, he]
      rw [scanFragment_ek_fail hc he, hfd]
      simpa [optList] using hinv
    | some ε =>
      cases hd : s.wallet.decrypt f.encrypted_note ε with
      | none =>
        have hfd : fragDecrypted s.wallet f = none := by
          simp [fragDecrypted, hc, he, hd]
        rw [scanFragment_decrypt_none hc he hd, hfd]
        simpa [optList] using hinv
      | some n =>
        have hfd : fragDecrypted s.wallet f = some c := by
          simp [fragDecrypted, hc, he, hd]
        rw [scanFragment_decrypt_some hc he hd, hfd]
        have hcP : c ∉ P := hfresh c hfd
        refine ⟨?_, ?_, ?_⟩
        · intro p hp
          rcases SMap.mem_insert hp with h | h
          · rw [h]; simp [optList]
          · exact List.mem_append_left _ (hinv.1 p h)
        · intro p hp
          exact List.mem_append_left _ (hinv.2.1 p hp)
        · intro p hp
          rcases SMap.mem_insert hp with h | h
          · rw [h]
            cases hsp : SMap.get s.spent_set c with
            | none => rfl
            | some v =>
              exact absurd (hinv.2.1 (c, v) (SMap.get_mem hsp)) hcP
          · exact hinv.2.2 p h

theorem scanFragments_trackInv (fs : List StateFragment) :
    ∀ (P : List Commitment) (s : ClientState), TrackInv P s →
      (P ++ fs.filterMap (fragDecrypted s.wallet)).Nodup →
      TrackInv (P ++ fs.filterMap (fragDecrypted s.wallet)) (scanFragments s fs).1 := by
  induction fs with
  | nil => intro P s h _; simpa using h
  | cons f fs ih =>
    intro P s hinv hnd
    have hw : (scanFragment s f).1.wallet = s.wallet := (scanFragment_frame s f).2.2.2.2
    have hfresh : ∀ c, fragDecrypted s.wallet f = some c → c ∉ P := by
      intro c hc hcP
      have hmem : c ∈ List.filterMap (fragDecrypted s.wallet) (f :: fs) := by
        simp [List.filterMap_cons, hc]
      exact (List.nodup_append.mp hnd).2.2 hcP hmem
    have hstep := scanFragment_trackInv hinv hfresh
    cases hfd : fragDecrypted s.wallet f with
    | none =>
      rw [hfd] at hstep
      have hcons : List.filterMap (fragDecrypted s.wallet) (f :: fs) =
          List.filterMap (fragDecrypted s.wallet) fs := by
        simp [List.filterMap_cons, hfd]
      rw [hcons] at hnd ⊢
      cases hp : scanFragment s f with
      | mk s1 e =>
        rw [hp] at hstep hw
        cases e with
        | none =>
          simp only [scanFragments, hp]
          have := ih P s1 (by simpa [optList] using hstep) (by rw [hw]; exact hnd)
          rw [hw] at this
          exact this
        | some e' =>
          simp only [scanFragments, hp]
          exact trackInv_mono (fun c hc => List.mem_append_left _ (by simpa [optList] using hc))
            hstep
    | some c =>
      rw [hfd] at hstep
      have hcons : List.filterMap (fragDecrypted s.wallet) (f :: fs) =
          c :: List.filterMap (fragDecrypted s.wallet) fs := by
        simp [List.filterMap_cons, hfd]
      rw [hcons] at hnd ⊢
      have hPc : P ++ c :: List.filterMap (fragDecrypted s.wallet) fs =
          (P ++ [c]) ++ List.filterMap (fragDecrypted s.wallet) fs := by
        simp
      cases hp : scanFragment s f with
      | mk s1 e =>
        rw [hp] at hstep hw
        cases e with
        | none =>
          simp only [scanFragments, hp]
          have hnd' : ((P ++ [c]) ++
              List.filterMap (fragDecrypted s1.wallet) fs).Nodup := by
            rw [hw, ← hPc]; exact hnd
          have := ih (P ++ [c]) s1 (by simpa [optList] using hstep) hnd'
          rw [hw] at this
          rw [hPc]
          exact this
        | some e' =>
          simp only [scanFragments, hp]
          rw [hPc]
          exact trackInv_mono
            (fun x hx => List.mem_append_left _ (by simpa [optList] using hx)) hstep

theorem scanNullifier_trackInv {P : List Commitment} {s : ClientState} {nf : Bytes}
    (hinv : TrackInv P s) : TrackInv P (scanNullifier s nf) := by
  cases h1 : fromBytes32 nf with
  | none => simp only [scanNullifier, h1]; exact hinv
  | some ν =>
    cases h2 : SMap.get s.nullifier_map ν with
    | none => simp only [scanNullifier, h1, h2]; exact hinv
    | some c =>
      cases h3 : SMap.get s.unspent_set c with
      | none => simp only [scanNullifier, h1, h2, h3]; exact hinv
      | some n =>
        simp only [scanNullifier, h1, h2, h3]
        refine ⟨?_, ?_, ?_⟩
        · intro p hp
          exact hinv.1 p (SMap.mem_remove hp)
        · intro p hp
          rcases SMap.mem_insert hp with h | h
          · rw [h]; exact hinv.1 (c, n) (SMap.get_mem h3)
          · exact hinv.2.1 p h
        · intro p hp
          have hpc : p.1 ≠ c := SMap.mem_remove_ne hp
          rw [SMap.get_insert_ne _ _ _ _ hpc]
          exact hinv.2.2 p (SMap.mem_remove hp)

theorem foldl_scanNullifier_trackInv (nfs : List Bytes) {P : List Commitment} :
    ∀ (s : ClientState), TrackInv P s →
      TrackInv P (List.foldl scanNullifier s nfs) := by
  induction nfs with
  | nil => intro s h; exact h
  | cons nf nfs ih =>
    intro s h
    simp only [List.foldl_cons]
    exact ih _ (scanNullifier_trackInv h)

theorem scanBlock_trackInv {P : List Commitment} {s : ClientState} {b : CompactBlock}
    (hinv : TrackInv P s) (hnd : (P ++ blockDecrypted s.wallet b).Nodup) :
    TrackInv (P ++ blockDecrypted s.wallet b) (scan_block s b).1 := by
  cases hok : heightOk b.height s.last_block_height with
  | false =>
    simp only [scan_block, hok]
    exact trackInv_mono (fun c hc => List.mem_append_left _ hc) hinv
  | true =>
    have hfr := scanFragments_trackInv b.fragments P s hinv hnd
    cases hp : scanFragments s b.fragments with
    | mk s1 e =>
      rw [hp] at hfr
      cases e with
      | none =>
        simp only [scan_block, hok, if_true, hp]
        exact foldl_scanNullifier_trackInv b.nullifiers s1 hfr
      | some e' =>
        simp only [scan_block, hok, if_true, hp]
        exact hfr

theorem scanChain_trackInv (bs : List CompactBlock) :
    ∀ (P : List Commitment) (s : ClientState), TrackInv P s →
      (P ++ chainDecrypted s.wallet bs).Nodup →
      TrackInv (P ++ chainDecrypted s.wallet bs) (scanChain s bs).1 := by
  induction bs with
  | nil => intro P s h _; simpa [chainDecrypted, scanChain] using h
  | cons b bs ih =>
    intro P s hinv hnd
    have hw : (scan_block s b).1.wallet = s.wallet := (scanBlock_frame s b).2.2
    have hchain : chainDecrypted s.wallet (b :: bs) =
        blockDecrypted s.wallet b ++ chainDecrypted s.wallet bs := rfl
    rw [hchain] at hnd ⊢
    rw [← List.append_assoc] at hnd ⊢
    have hnd1 : (P ++ blockDecrypted s.wallet b).Nodup :=
      List.Nodup.of_append_left hnd
    have hblock := scanBlock_trackInv hinv hnd1
    cases hp : scan_block s b with
    | mk s1 e =>
      rw [hp] at hblock hw
      cases e with
      | none =>
        simp only [scanChain, hp]
        have := ih (P ++ blockDecrypted s.wallet b) s1 hblock (by rw [hw]; exact hnd)
        rw [hw] at this
        exact this
      | some e' =>
        simp only [scanChain, hp]
        exact trackInv_mono (fun c hc => List.mem_append_left _ hc) hblock

/-- A successor block spending the note delivered by `blockOneNote`. -/
def blockSpend1 : CompactBlock :=
  { height := 1, fragments := [], nullifiers := [toBytes32 1000005] }

/-- A block re-delivering `fragGood` after the note was spent. -/
def blockRedeliver : CompactBlock :=
  { height := 2, fragments := [fragGood], nullifiers := [] }

/-- C5 counterexample: a successful three-block run (deliver, spend,
re-deliver) from the empty state ends with commitment 5 in *both* the
unspent and the spent set — the key sets are not disjoint. -/
theorem disjoint_sets_counterexample :
    (scanChain (ClientState.new wallet0)
      [blockOneNote, blockSpend1, blockRedeliver]).2 = none ∧
    SMap.get (scanChain (ClientState.new wallet0)
      [blockOneNote, blockSpend1, blockRedeliver]).1.unspent_set 5 = some note7 ∧
    SMap.get (scanChain (ClientState.new wallet0)
      [blockOneNote, blockSpend1, blockRedeliver]).1.spent_set 5 = some note7 := by
  refine ⟨?_, ?_, ?_⟩ <;> decide

/-- C5 (amended): after any sequence of successful `scan_block` calls from
the empty state *in which no commitment is delivered by a decryptable
fragment more than once*, the key sets of `unspent_set` and `spent_set` are
disjoint.  (When a later block re-delivers a fragment whose commitment
already sits in `spent_set`, the commitment re-enters `unspent_set` without
leaving `spent_set`, and disjointness fails — see the counterexample.) -/
theorem scan_chain_disjoint_sets (w : Wallet) (bs : List CompactBlock)
    (hnd : (chainDecrypted w bs).Nodup)
    (_hok : (scanChain (ClientState.new w) bs).2 = none) :
    DisjointKeys (scanChain (ClientState.new w) bs).1.unspent_set
      (scanChain (ClientState.new w) bs).1.spent_set := by
  have h0 : TrackInv [] (ClientState.new w) :=
    ⟨fun p hp => absurd hp (List.not_mem_nil p),
     fun p hp => absurd hp (List.not_mem_nil p),
     fun p hp => absurd hp (List.not_mem_nil p)⟩
  have h := scanChain_trackInv bs [] (ClientState.new w) h0
    (by simpa using hnd)
  exact h.2.2

/-- Witness for the amended C5 theorem at a concrete input: a deliver-then-
spend run keeps the sets disjoint. -/
theorem scan_chain_disjoint_sets_witness :
    DisjointKeys (scanChain (ClientState.new wallet0)
        [blockOneNote, blockSpend1]).1.unspent_set
      (scanChain (ClientState.new wallet0) [blockOneNote, blockSpend1]).1.spent_set :=
  scan_chain_disjoint_sets wallet0 [blockOneNote, blockSpend1]
    (by decide) (by decide)

/-! ## C7: `new_transaction` does not mutate the state -/

/-- C7: `new_transaction` leaves the client state unchanged — every field,
on every path (success or failure); selected notes are not moved to the
spent set. -/
theorem new_transaction_no_mutation (s : ClientState) (env : TxEnv)
    (amount : Nat) (denomination address : List Nat) (fee : Nat)
    (change_address source_address : Option Nat) :
    (s.new_transaction env amount denomination address fee change_address
      source_address).2 = s := by
  unfold ClientState.new_transaction
  repeat' first
    | rfl
    | split
    | dsimp only

/-! ## C8: the insufficient-balance failure -/

/-- The greedy loop stops at the threshold or exhausts the candidates. -/
theorem selectNotes_exhaust (θ : Nat) (l : List Note) :
    ∀ (acc : List Note) (t : Nat),
      θ ≤ (selectNotes θ l acc t).2 ∨
      selectNotes θ l acc t = (acc ++ l, t + (l.map Note.amount).sum) := by
  induction l with
  | nil => intro acc t; right; simp [selectNotes]
  | cons n rest ih =>
    intro acc t
    by_cases hth : θ ≤ t + n.amount
    · left
      simp only [selectNotes, if_pos hth]
      exact hth
    · rcases ih (acc ++ [n]) (t + n.amount) with h | h
      · left
        simp only [selectNotes, if_neg hth]
        exact h
      · right
        simp only [selectNotes, if_neg hth]
        rw [h, Prod.ext_iff]
        refine ⟨by simp, ?_⟩
        simp only [List.map_cons, List.sum_cons]
        omega

/-- If the candidates cover the threshold the loop reaches it. -/
theorem selectNotes_reach (θ : Nat) (l : List Note) :
    ∀ (acc : List Note) (t : Nat), θ ≤ t + (l.map Note.amount).sum →
      θ ≤ (selectNotes θ l acc t).2 := by
  induction l with
  | nil => intro acc t h; simpa [selectNotes] using h
  | cons n rest ih =>
    intro acc t h
    by_cases hth : θ ≤ t + n.amount
    · simp only [selectNotes, if_pos hth]
      exact hth
    · simp only [selectNotes, if_neg hth]
      refine ih (acc ++ [n]) (t + n.amount) ?_
      simp only [List.map_cons, List.sum_cons] at h
      omega

/-- The running total never exceeds the available amounts. -/
theorem selectNotes_le (θ : Nat) (l : List Note) :
    ∀ (acc : List Note) (t : Nat),
      (selectNotes θ l acc t).2 ≤ t + (l.map Note.amount).sum := by
  induction l with
  | nil => intro acc t; simp [selectNotes]
  | cons n rest ih =>
    intro acc t
    by_cases hth : θ ≤ t + n.amount
    · simp only [selectNotes, if_pos hth, List.map_cons, List.sum_cons]
      omega
    · simp only [selectNotes, if_neg hth, List.map_cons, List.sum_cons]
      have := ih (acc ++ [n]) (t + n.amount)
      omega

/-- The loop selects at least one note when any candidate exists. -/
theorem selectNotes_ne_nil (θ : Nat) (l : List Note) :
    ∀ (acc : List Note) (t : Nat), (l ≠ [] ∨ acc ≠ []) →
      (selectNotes θ l acc t).1 ≠ [] := by
  induction l with
  | nil =>
    intro acc t h
    rcases h with h | h
    · exact absurd rfl h
    · simpa [selectNotes] using h
  | cons n rest ih =>
    intro acc t _
    by_cases hth : θ ≤ t + n.amount
    · simp only [selectNotes, if_pos hth]
      simp
    · simp only [selectNotes, if_neg hth]
      exact ih (acc ++ [n]) (t + n.amount) (Or.inr (by simp))

/-- C8: when the address parses and candidate notes of the requested
denomination (restricted to the source address when given) exist,
`new_transaction` fails with `InsufficientBalance` — reporting `need =
amount + fee` and `have = ` the sum of the candidate notes' amounts —
exactly when that sum is below `amount + fee`. -/
theorem new_transaction_insufficient_balance (s : ClientState) (env : TxEnv)
    (amount : Nat) (denomination address : List Nat) (fee : Nat)
    (change_address source_address : Option Nat)
    (addr : Nat) (by_denom : HMap (List Nat) (SMap (List Note)))
    (notes_by_address : SMap (List Note)) (candidates : List Note)
    (haddr : env.parseAddress address = some addr)
    (hview : s.unspent_notes_by_denom_and_address = some by_denom)
    (hdenom : HMap.find by_denom denomination = some notes_by_address)
    (hcand : (match source_address with
      | some src => SMap.get notes_by_address src = some candidates
      | none => candidates = (notes_by_address.map (fun p => p.2)).join))
    (hne : candidates ≠ [])
    (hperm : (env.shuffle candidates).Perm candidates) :
    ((∃ x y, (s.new_transaction env amount denomination address fee change_address
        source_address).1 = Except.error (TxError.insufficientBalance x y)) ↔
      (candidates.map Note.amount).sum < amount + fee)
    ∧ ((candidates.map Note.amount).sum < amount + fee →
      (s.new_transaction env amount denomination address fee change_address
        source_address).1 = Except.error (TxError.insufficientBalance (amount + fee)
          ((candidates.map Note.amount).sum))) := by
  have hcand' : (match source_address with
      | some source =>
        match SMap.get notes_by_address source with
        | none => Except.error TxError.noNotesAtAddress
        | some ns => Except.ok ns
      | none => Except.ok ((notes_by_address.map (fun p => p.2)).join)) =
      Except.ok candidates := by
    cases source_address with
    | none =>
      simp only at hcand
      rw [hcand]
    | some src =>
      simp only at hcand
      simp only [hcand]
  have hsum : ((env.shuffle candidates).map Note.amount).sum =
      (candidates.map Note.amount).sum := (hperm.map Note.amount).sum_eq
  have hnotes_ne : env.shuffle candidates ≠ [] := by
    intro hcontra
    have hlen := hperm.length_eq
    rw [hcontra] at hlen
    exact hne (List.length_eq_zero.mp hlen.symm)
  have hA : (candidates.map Note.amount).sum < amount + fee →
      (s.new_transaction env amount denomination address fee change_address
        source_address).1 = Except.error (TxError.insufficientBalance (amount + fee)
          ((candidates.map Note.amount).sum)) := by
    intro hlow
    have hle := selectNotes_le (amount + fee) (env.shuffle candidates) [] 0
    rw [Nat.zero_add, hsum] at hle
    have hslt : (selectNotes (amount + fee) (env.shuffle candidates) [] 0).2 <
        amount + fee := lt_of_le_of_lt hle hlow
    have hfull : selectNotes (amount + fee) (env.shuffle candidates) [] 0 =
        ([] ++ env.shuffle candidates,
          0 + ((env.shuffle candidates).map Note.amount).sum) := by
      rcases selectNotes_exhaust (amount + fee) (env.shuffle candidates) [] 0 with h | h
      · omega
      · exact h
    have hsel2 : (selectNotes (amount + fee) (env.shuffle candidates) [] 0).2 =
        (candidates.map Note.amount).sum := by
      rw [hfull]
      simpa using hsum
    have hsel1ne : (selectNotes (amount + fee) (env.shuffle candidates) [] 0).1 ≠ [] :=
      selectNotes_ne_nil _ _ [] 0 (Or.inl hnotes_ne)
    simp only [ClientState.new_transaction, haddr, hview, hdenom, hcand']
    cases change_address with
    | some ca =>
      simp only [hsel2, if_pos hlow]
    | none =>
      cases hlast : (selectNotes (amount + fee) (env.shuffle candidates) [] 0).1.getLast? with
      | none => exact absurd (List.getLast?_eq_none_iff.mp hlast) hsel1ne
      | some lastNote =>
        simp only [hlast, hsel2, if_pos hlow]
  have hB : ¬ (candidates.map Note.amount).sum < amount + fee →
      ∀ x y, (s.new_transaction env amount denomination address fee change_address
        source_address).1 ≠ Except.error (TxError.insufficientBalance x y) := by
    intro hlow x y
    have hreach := selectNotes_reach (amount + fee) (env.shuffle candidates) [] 0
      (by rw [Nat.zero_add, hsum]; omega)
    have hnlt : ¬ (selectNotes (amount + fee) (env.shuffle candidates) [] 0).2 <
        amount + fee := by omega
    simp only [ClientState.new_transaction, haddr, hview, hdenom, hcand']
    intro hres
    repeat' split at hres
    all_goals first
      | omega
      | (simp at hres
         done)
      | (simp at hres
         rename_i e heq
         subst hres
         split at heq
         · simp at heq
         · split at heq <;> simp at heq)
  refine ⟨⟨?_, ?_⟩, hA⟩
  · rintro ⟨x, y, hres⟩
    by_contra hlow
    exact hB hlow x y hres
  · intro hlow
    exact ⟨amount + fee, (candidates.map Note.amount).sum, hA hlow⟩

/-- A state holding a single unspent note of amount 100 with its
denomination ("X") registered. -/
def stateC8 : ClientState :=
  { ClientState.new wallet0 with
      unspent_set := [(5, note7)], asset_registry := [(7, [88])] }

/-- A concrete transaction environment: every address parses, the shuffle is
the identity permutation, finalization succeeds. -/
def env0 : TxEnv where
  parseAddress := fun _ => some 0
  shuffle := id
  note_commit := fun _ => 0
  finalize := fun _ => Except.ok 0

/-- Witness for C8 at the spec's concrete scenario: a single note of amount
100, `amount = 90`, `fee = 20` → `InsufficientBalance { need: 110, have:
100 }`. -/
theorem new_transaction_insufficient_balance_witness :
    (stateC8.new_transaction env0 90 [88] [] 20 none none).1 =
      Except.error (TxError.insufficientBalance 110 100) := by
  have h := new_transaction_insufficient_balance stateC8 env0 90 [88] [] 20 none none
    0 [([88], [(0, [note7])])] [(0, [note7])] [note7]
    rfl rfl (by decide) rfl (by decide) (List.Perm.refl _)
  exact h.2 (by decide)

/-! ## C9: the serialization round trip -/

/-- All numeric components of a note fit in 32 bytes. -/
def NoteBounded (n : Note) : Prop :=
  n.asset_id < 2 ^ 256 ∧ n.amount < 2 ^ 256 ∧ n.diversifier < 2 ^ 256

instance (n : Note) : Decidable (NoteBounded n) :=
  inferInstanceAs (Decidable (_ ∧ _ ∧ _))

theorem noteToBytes_lt (n : Note) : ∀ b ∈ noteToBytes n, b < 256 := by
  intro b hb
  simp only [noteToBytes, List.mem_append] at hb
  rcases hb with (hb | hb) | hb
  · exact toBytesBE_lt 32 _ b hb
  · exact toBytesBE_lt 32 _ b hb
  · exact toBytesBE_lt 32 _ b hb

theorem noteFromBytes_noteToBytes {n : Note} (h : NoteBounded n) :
    noteFromBytes (noteToBytes n) = some n := by
  have hlen : (noteToBytes n).length = 96 := by
    simp [noteToBytes, toBytes32]
  have ht1 : (noteToBytes n).take 32 = toBytes32 n.asset_id := by
    rw [noteToBytes, List.append_assoc]
    exact List.take_left' (by simp [toBytes32])
  have hd1 : (noteToBytes n).drop 32 = toBytes32 n.amount ++ toBytes32 n.diversifier := by
    rw [noteToBytes, List.append_assoc]
    exact List.drop_left' (by simp [toBytes32])
  have ht2 : ((noteToBytes n).drop 32).take 32 = toBytes32 n.amount := by
    rw [hd1]
    exact List.take_left' (by simp [toBytes32])
  have hd2 : (noteToBytes n).drop 64 = toBytes32 n.diversifier := by
    have h64 : (noteToBytes n).drop 64 = ((noteToBytes n).drop 32).drop 32 := by
      rw [List.drop_drop]
    rw [h64, hd1]
    exact List.drop_left' (by simp [toBytes32])
  rw [noteFromBytes, if_pos hlen, ht1, ht2, hd2,
    fromBytes32_toBytes32 h.1, fromBytes32_toBytes32 h.2.1,
    fromBytes32_toBytes32 h.2.2]

/-- Decoding loop inverse for the three hex-hex map encodings. -/
theorem foldlM_decode_pairs {ν : Type} (decV : List Nat → Option ν)
    (encV : ν → List Nat) (l : List (Nat × ν))
    (hK : ∀ p ∈ l, p.1 < 2 ^ 256)
    (hV : ∀ p ∈ l, (∀ b ∈ encV p.2, b < 256) ∧ decV (encV p.2) = some p.2) :
    ∀ acc : SMap ν,
      List.foldlM (fun (m : SMap ν) p => do
          let kb ← hexDecode p.1
          let k ← fromBytes32 kb
          let vb ← hexDecode p.2
          let v ← decV vb
          pure (SMap.insert m k v)) acc
        (l.map (fun p => (hexEncode (toBytes32 p.1), hexEncode (encV p.2))))
      = some (List.foldl (fun (m : SMap ν) p => SMap.insert m p.1 p.2) acc l) := by
  induction l with
  | nil => intro acc; rfl
  | cons p rest ih =>
    intro acc
    have hk := hK p (List.mem_cons_self _ _)
    have hv := hV p (List.mem_cons_self _ _)
    have ihr := ih (fun q hq => hK q (List.mem_cons_of_mem _ hq))
      (fun q hq => hV q (List.mem_cons_of_mem _ hq)) (SMap.insert acc p.1 p.2)
    rw [List.map_cons, List.foldlM_cons]
    rw [show hexDecode (hexEncode (toBytes32 p.1)) = some (toBytes32 p.1) from
      hexDecode_hexEncode (toBytesBE_lt 32 p.1)]
    rw [show hexDecode (hexEncode (encV p.2)) = some (encV p.2) from
      hexDecode_hexEncode hv.1]
    simp only [Option.bind_eq_bind, Option.some_bind, fromBytes32_toBytes32 hk, hv.2]
    exact ihr

/-- Decoding loop inverse for the asset-registry encoding (hex key, plain
denomination value). -/
theorem foldlM_decode_registry (l : List (Nat × List Nat))
    (hK : ∀ p ∈ l, p.1 < 2 ^ 256) :
    ∀ acc : SMap (List Nat),
      List.foldlM (fun (m : SMap (List Nat)) p => do
          let kb ← hexDecode p.1
          let k ← fromBytes32 kb
          pure (SMap.insert m k p.2)) acc
        (l.map (fun p => (hexEncode (toBytes32 p.1), p.2)))
      = some (List.foldl (fun (m : SMap (List Nat)) p => SMap.insert m p.1 p.2) acc l) := by
  induction l with
  | nil => intro acc; rfl
  | cons p rest ih =>
    intro acc
    have hk := hK p (List.mem_cons_self _ _)
    have ihr := ih (fun q hq => hK q (List.mem_cons_of_mem _ hq))
      (SMap.insert acc p.1 p.2)
    rw [List.map_cons, List.foldlM_cons]
    rw [show hexDecode (hexEncode (toBytes32 p.1)) = some (toBytes32 p.1) from
      hexDecode_hexEncode (toBytesBE_lt 32 p.1)]
    simp only [Option.bind_eq_bind, Option.some_bind, fromBytes32_toBytes32 hk]
    exact ihr

/-- Well-formedness of a client state: what every state reachable through
the byte-decoding scanner and a bounds-respecting wallet satisfies — the
four maps are key-sorted (`BTreeMap` order) and all numeric content fits in
32 bytes. -/
def WFState (s : ClientState) : Prop :=
  SMap.KeySorted s.nullifier_map ∧ SMap.KeySorted s.unspent_set ∧
  SMap.KeySorted s.spent_set ∧ SMap.KeySorted s.asset_registry ∧
  (∀ p ∈ s.nullifier_map, p.1 < 2 ^ 256 ∧ p.2 < 2 ^ 256) ∧
  (∀ p ∈ s.unspent_set, p.1 < 2 ^ 256 ∧ NoteBounded p.2) ∧
  (∀ p ∈ s.spent_set, p.1 < 2 ^ 256 ∧ NoteBounded p.2) ∧
  (∀ p ∈ s.asset_registry, p.1 < 2 ^ 256)

/-- C9 (amended): on every well-formed state, deserializing the serialized
form reconstructs the state exactly, except that `transactions` comes back
empty. -/
theorem serialization_roundtrip (s : ClientState) (hwf : WFState s) :
    fromHelper (toHelper s) = some { s with transactions := [] } := by
  obtain ⟨hs1, hs2, hs3, hs4, hb1, hb2, hb3, hb4⟩ := hwf
  have h1 := foldlM_decode_pairs fromBytes32 toBytes32 s.nullifier_map
    (fun p hp => (hb1 p hp).1)
    (fun p hp => ⟨toBytesBE_lt 32 _, fromBytes32_toBytes32 (hb1 p hp).2⟩) []
  have h2 := foldlM_decode_pairs noteFromBytes noteToBytes s.unspent_set
    (fun p hp => (hb2 p hp).1)
    (fun p hp => ⟨noteToBytes_lt _, noteFromBytes_noteToBytes (hb2 p hp).2⟩) []
  have h3 := foldlM_decode_pairs noteFromBytes noteToBytes s.spent_set
    (fun p hp => (hb3 p hp).1)
    (fun p hp => ⟨noteToBytes_lt _, noteFromBytes_noteToBytes (hb3 p hp).2⟩) []
  have h4 := foldlM_decode_registry s.asset_registry hb4 []
  rw [SMap.foldl_insert_sorted _ _ (by simpa using hs1)] at h1
  rw [SMap.foldl_insert_sorted _ _ (by simpa using hs2)] at h2
  rw [SMap.foldl_insert_sorted _ _ (by simpa using hs3)] at h3
  rw [SMap.foldl_insert_sorted _ _ (by simpa using hs4)] at h4
  simp only [fromHelper, toHelper, h1, h2, h3, h4]
  rfl

/-- The character codes of the string `penumbra`. -/
def penumbraStr : List Nat := [112, 101, 110, 117, 109, 98, 114, 97]

/-- A state registering asset 3 under the denomination `penumbra`. -/
def stateRegP : ClientState :=
  { ClientState.new wallet0 with asset_registry := [(3, penumbraStr)] }

/-- C9 counterexample: the serialized `asset_registry` stores denomination
values as plain strings, not hex — the emitted value for asset 3 is the
string `penumbra` itself, which the hex decoder rejects, so the four map
encodings are not uniformly hex-encoded pairs. -/
theorem serialization_hex_counterexample :
    (toHelper stateRegP).asset_registry.map Prod.snd = [penumbraStr] ∧
    hexDecode penumbraStr = none := by
  refine ⟨rfl, by decide⟩

/-- A small well-formed state exercising every serialized field. -/
def stateWF : ClientState :=
  { ClientState.new wallet0 with
      last_block_height := some 3,
      note_commitment_tree := { leaves := [5], witnessed := [0] },
      nullifier_map := [(1000005, 5)],
      unspent_set := [(5, note7)],
      spent_set := [(6, note7)],
      asset_registry := [(7, [88])] }

/-- Witness for the amended C9 theorem at a concrete input. -/
theorem serialization_roundtrip_witness :
    fromHelper (toHelper stateWF) = some { stateWF with transactions := [] } :=
  serialization_roundtrip stateWF
    (by refine ⟨?_, ?_, ?_, ?_, ?_, ?_, ?_, ?_⟩ <;> decide)

/-! ### Reachable states are well-formed

`WFState` is not an extra assumption on top of reachability: the empty state
is well-formed and `scan_block` preserves well-formedness whenever the
wallet's crypto outputs fit in 32 bytes (which the real field-element types
guarantee), as does `add_asset_to_registry` for a 32-byte asset id. -/

/-- A wallet whose derived nullifiers and decrypted note components fit in
32 bytes, as the real field-element and scalar types guarantee. -/
def WalletBounded (w : Wallet) : Prop :=
  (∀ pos c, w.derive_nullifier pos c < 2 ^ 256) ∧
  (∀ ct ε n, w.decrypt ct ε = some n → NoteBounded n)

theorem SMap.all_insert {ν : Type} {m : SMap ν} {Q : Nat × ν → Prop}
    (hall : ∀ p ∈ m, Q p) {k : Nat} {v : ν} (hkv : Q (k, v)) :
    ∀ p ∈ SMap.insert m k v, Q p := by
  intro p hp
  rcases SMap.mem_insert hp with h | h
  · rw [h]; exact hkv
  · exact hall p h

theorem SMap.all_remove {ν : Type} {m : SMap ν} {Q : Nat × ν → Prop}
    (hall : ∀ p ∈ m, Q p) {k : Nat} :
    ∀ p ∈ SMap.remove m k, Q p :=
  fun p hp => hall p (SMap.mem_remove hp)

theorem scanFragment_WF {s : ClientState} {f : StateFragment}
    (hw : WalletBounded s.wallet) (hwf : WFState s) :
    WFState (scanFragment s f).1 := by
  obtain ⟨hs1, hs2, hs3, hs4, hb1, hb2, hb3, hb4⟩ := hwf
  cases hc : fromBytes32 f.note_commitment with
  | none =>
    rw [scanFragment_nc_fail hc]
    exact ⟨hs1, hs2, hs3, hs4, hb1, hb2, hb3, hb4⟩
  | some c =>
    cases he : fromBytes32 f.ephemeral_key with
    | none =>
      rw [scanFragment_ek_fail hc he]
      exact ⟨hs1, hs2, hs3, hs4, hb1, hb2, hb3, hb4⟩
    | some ε =>
      cases hd : s.wallet.decrypt f.encrypted_note ε with
      | none =>
        rw [scanFragment_decrypt_none hc he hd]
        exact ⟨hs1, hs2, hs3, hs4, hb1, hb2, hb3, hb4⟩
      | some n =>
        rw [scanFragment_decrypt_some hc he hd]
        refine ⟨SMap.keySorted_insert hs1 _ _, SMap.keySorted_insert hs2 _ _,
          hs3, hs4, ?_, ?_, hb3, hb4⟩
        · exact SMap.all_insert hb1 ⟨hw.1 _ _, fromBytes32_lt hc⟩
        · exact SMap.all_insert hb2 ⟨fromBytes32_lt hc, hw.2 _ _ _ hd⟩

theorem scanNullifier_WF {s : ClientState} {nf : Bytes} (hwf : WFState s) :
    WFState (scanNullifier s nf) := by
  obtain ⟨hs1, hs2, hs3, hs4, hb1, hb2, hb3, hb4⟩ := hwf
  cases h1 : fromBytes32 nf with
  | none =>
    simp only [scanNullifier, h1]
    exact ⟨hs1, hs2, hs3, hs4, hb1, hb2, hb3, hb4⟩
  | some ν =>
    cases h2 : SMap.get s.nullifier_map ν with
    | none =>
      simp only [scanNullifier, h1, h2]
      exact ⟨hs1, hs2, hs3, hs4, hb1, hb2, hb3, hb4⟩
    | some c =>
      cases h3 : SMap.get s.unspent_set c with
      | none =>
        simp only [scanNullifier, h1, h2, h3]
        exact ⟨hs1, hs2, hs3, hs4, hb1, hb2, hb3, hb4⟩
      | some n =>
        simp only [scanNullifier, h1, h2, h3]
        exact ⟨hs1, SMap.keySorted_remove hs2 _, SMap.keySorted_insert hs3 _ _,
          hs4, hb1, SMap.all_remove hb2,
          SMap.all_insert hb3 (hb2 (c, n) (SMap.get_mem h3)), hb4⟩

theorem scanFragments_WF (fs : List StateFragment) :
    ∀ {s : ClientState}, WalletBounded s.wallet → WFState s →
      WFState (scanFragments s fs).1 := by
  induction fs with
  | nil => intro s _ hwf; exact hwf
  | cons f fs ih =>
    intro s hw hwf
    have hstep := scanFragment_WF (f := f) hw hwf
    have hwall : (scanFragment s f).1.wallet = s.wallet :=
      (scanFragment_frame s f).2.2.2.2
    cases hp : scanFragment s f with
    | mk s1 e =>
      rw [hp] at hstep hwall
      cases e with
      | none =>
        simp only [scanFragments, hp]
        exact ih (by rw [hwall]; exact hw) hstep
      | some e' =>
        simp only [scanFragments, hp]
        exact hstep

theorem foldl_scanNullifier_WF (nfs : List Bytes) :
    ∀ {s : ClientState}, WFState s →
      WFState (List.foldl scanNullifier s nfs) := by
  induction nfs with
  | nil => intro s hwf; exact hwf
  | cons nf nfs ih =>
    intro s hwf
    simp only [List.foldl_cons]
    exact ih (scanNullifier_WF hwf)

/-- The scanner keeps the state well-formed: `WFState` covers every state
the scanner can reach from a well-formed one. -/
theorem scan_block_WF {s : ClientState} {b : CompactBlock}
    (hw : WalletBounded s.wallet) (hwf : WFState s) :
    WFState (scan_block s b).1 := by
  cases hok : heightOk b.height s.last_block_height with
  | false => simp only [scan_block, hok]; exact hwf
  | true =>
    have hfr := scanFragments_WF b.fragments hw hwf
    have hwall := (scanFragments_frame b.fragments s).2.2.2.2
    cases hp : scanFragments s b.fragments with
    | mk s1 e =>
      rw [hp] at hfr hwall
      cases e with
      | none =>
        simp only [scan_block, hok, if_true, hp]
        have hn := foldl_scanNullifier_WF b.nullifiers hfr
        exact ⟨hn.1, hn.2.1, hn.2.2.1, hn.2.2.2.1, hn.2.2.2.2.1,
          hn.2.2.2.2.2.1, hn.2.2.2.2.2.2.1, hn.2.2.2.2.2.2.2⟩
      | some e' =>
        simp only [scan_block, hok, if_true, hp]
        exact hfr

/-- The empty state is well-formed. -/
theorem clientState_new_WF (w : Wallet) : WFState (ClientState.new w) := by
  refine ⟨?_, ?_, ?_, ?_, ?_, ?_, ?_, ?_⟩ <;>
    first
      | exact List.Pairwise.nil
      | (intro p hp; exact absurd hp (List.not_mem_nil p))

/-- `add_asset_to_registry` keeps the state well-formed for a 32-byte asset
id. -/
theorem add_asset_to_registry_WF {s : ClientState} {asset_id : AssetId}
    {denom : List Nat} (hid : asset_id < 2 ^ 256) (hwf : WFState s) :
    WFState (s.add_asset_to_registry asset_id denom) := by
  obtain ⟨hs1, hs2, hs3, hs4, hb1, hb2, hb3, hb4⟩ := hwf
  exact ⟨hs1, hs2, hs3, SMap.keySorted_insert hs4 _ _, hb1, hb2, hb3,
    SMap.all_insert (Q := fun p => p.1 < 2 ^ 256) hb4 hid⟩

end Penumbra
